import Mathlib

/-!
# A verification of `baseconvert`

A shallow embedding of `baseconvert/baseconvert.py` (positional-base
conversion of rational numbers, with recurring-digit detection), together
with theorems checking the natural-language specification against it.

Modelling conventions:
* A Python tuple of digits/markers is a `List El`; a digit value is an `Int`
  (the string parser really can produce negative values: `'-'` maps to `-10`).
* Python `//` and `%` on `int` are `Int.fdiv` and `Int.fmod` (floor division,
  remainder with the sign of the divisor), which agree with Python on all
  integers.
* `fractions.gcd` (Python 2/early-3 stdlib: `while b: a, b = b, a % b; return a`)
  is embedded as the same loop, made total with fuel `|b| + 1`, which is
  provably enough since `|b|` strictly decreases.
* Operations that can raise in Python (`ValueError` in `base`, `TypeError`
  from arithmetic on a marker, `IndexError` from out-of-range tuple indexing)
  return `Except Err _` / `Option _`; `none` / `.error` means the Python code
  would raise there.
* While-loops are embedded as fuel or count-indexed structural recursions so
  that every definition evaluates by kernel reduction; fuel values are chosen
  (and where proofs need it, proved) to cover every iteration the Python
  loop performs.
-/

namespace Baseconvert

/-- An element of a number tuple: a digit value, the radix point `'.'`,
or a recurring-pattern bracket `'['` / `']'`. -/
inductive El : Type where
  | d (n : Int)
  | dot
  | lb
  | rb
deriving DecidableEq

/-- Errors the Python code can raise on the paths we model:
`valueError` is the explicit `raise ValueError` in `base`; `typeError` is
arithmetic applied to a `'.'`/`'['`/`']'` marker; `indexError` is an
out-of-range tuple index in `find_recurring`. -/
inductive Err : Type where
  | valueError
  | typeError
  | indexError
deriving DecidableEq

/-- First index of `t` in a list: models Python `tuple.index` (callers only
use it when `t` is present; on absence Python would raise, the callers in
the source guard with `in`). -/
def firstIdx (t : El) : List El → Nat
  | [] => 0
  | e :: rest => if e = t then 0 else firstIdx t rest + 1

/-- Occurrence count of `t`: models Python `tuple.count`. -/
def countEl (t : El) : List El → Nat
  | [] => 0
  | e :: rest => (if e = t then 1 else 0) + countEl t rest

/-- `str_digit_to_int` from the source: `'0'`-`'9'` via `int(chr)`, otherwise
`ord(chr) - 55` below code point 91 (`A`-`Z`), else `ord(chr) - 61`. -/
def str_digit_to_int (c : Char) : Int :=
  if c = '0' ∨ c = '1' ∨ c = '2' ∨ c = '3' ∨ c = '4' ∨ c = '5' ∨ c = '6' ∨
     c = '7' ∨ c = '8' ∨ c = '9' then
    (c.toNat : Int) - 48
  else if (c.toNat : Int) < 91 then (c.toNat : Int) - 55
  else (c.toNat : Int) - 61

/-- `int_to_str_digit` from the source: `str(n)` below 10, `chr(n + 55)`
below 36, else `chr(n + 61)`. -/
def int_to_str_digit (n : Int) : String :=
  if n < 10 then toString n
  else if n < 36 then String.singleton (Char.ofNat (n + 55).toNat)
  else String.singleton (Char.ofNat (n + 61).toNat)

/-- One character of `represent_as_tuple`'s comprehension: keep `'.'`,
`'['`, `']'`, map every other character through `str_digit_to_int`. -/
def parseChar (c : Char) : El :=
  if c = '.' then El.dot
  else if c = '[' then El.lb
  else if c = ']' then El.rb
  else El.d (str_digit_to_int c)

/-- `represent_as_tuple` from the source. -/
def represent_as_tuple (s : String) : List El :=
  s.toList.map parseChar

/-- One element of `represent_as_string`'s output. -/
def elToStr : El → String
  | El.dot => "."
  | El.lb => "["
  | El.rb => "]"
  | El.d n => int_to_str_digit n

/-- `represent_as_string` from the source. -/
def represent_as_string (l : List El) : String :=
  String.join (l.map elToStr)

/-- `digit` from the source: the value of `decimal` at position `dgt` when
represented in `input_base`. -/
def digit (decimal : Int) (dgt : Nat) (input_base : Int) : Int :=
  if decimal = 0 then 0
  else if dgt ≠ 0 then (decimal.fdiv (input_base ^ dgt)).fmod input_base
  else decimal.fmod input_base

/-- The while-loop of `digits`, with fuel. The Python loop terminates only
for `base ≥ 2`, and its callers (`from_base_10_int` after its base-1 special
case) guarantee that; `number + 1` fuel then covers every iteration. -/
def digitsLoop (base : Int) : Nat → Int → Nat
  | 0, _ => 0
  | fuel + 1, number =>
    if number < 1 then 0 else digitsLoop base fuel (number.fdiv base) + 1

/-- `digits` from the source: number of digits of `number` in `base`. -/
def digits (number base : Int) : Nat :=
  digitsLoop base (number.toNat + 1) number

/-- `from_base_10_int` from the source. -/
def from_base_10_int (decimal : Int) (output_base : Int) : List El :=
  if decimal ≤ 0 then [El.d 0]
  else if output_base = 1 then List.replicate decimal.toNat (El.d 1)
  else
    ((List.range (digits decimal output_base)).map
      (fun i => El.d (digit decimal i output_base))).reverse

/-- Digit values of a tuple; `none` models the `TypeError` Python raises when
arithmetic meets a `'.'`/`'['`/`']'` marker. -/
def elVals : List El → Option (List Int)
  | [] => some []
  | El.d n :: rest => (elVals rest).map fun vs => n :: vs
  | _ :: _ => none

/-- `sum(c * b ** i for i, c in enumerate(vs))`, exponent starting at `i`. -/
def sumPow (b : Int) : List Int → Nat → Int
  | [], _ => 0
  | c :: rest, i => c * b ^ i + sumPow b rest (i + 1)

/-- `to_base_10_int` from the source:
`sum(c * input_base ** i for i, c in enumerate(n[::-1]))`. -/
def to_base_10_int (n : List El) (input_base : Int) : Option Int :=
  (elVals n).map fun vs => sumPow input_base vs.reverse 0

/-- `integer_base` from the source. -/
def integer_base (number : List El) (input_base output_base : Int) :
    Option (List El) :=
  (to_base_10_int number input_base).map fun v => from_base_10_int v output_base

/-- The loop of `fractions.gcd`: `while b: a, b = b, a % b; return a`,
with fuel (see `pyGcd`). -/
def gcdLoop : Nat → Int → Int → Int
  | 0, a, _ => a
  | fuel + 1, a, b => if b = 0 then a else gcdLoop fuel b (a.fmod b)

/-- `fractions.gcd` (imported by the source). Fuel `|b| + 1` covers every
iteration: `|b|` strictly decreases under `a.fmod b` for `b ≠ 0`. -/
def pyGcd (a b : Int) : Int := gcdLoop (b.natAbs + 1) a b

/-- The digit-extraction while-loop of `fractional_base`.  The Python loop
runs for `i = 1, …, max_depth` exactly, so the remaining iteration count is
the first (structural) argument and `i` is carried alongside. -/
def fbLoop (output_base : Int) :
    Nat → Nat → Int → Int → List Int → List Int
  | 0, _, _, _, digs => digs
  | r + 1, i, numerator, denominator, digs =>
    let num1 := numerator * output_base ^ i
    let dgt := num1.fdiv denominator
    let num2 := num1 - dgt * denominator
    let den1 := denominator * output_base ^ i
    let g := pyGcd num2 den1
    fbLoop output_base r (i + 1) (num2.fdiv g) (den1.fdiv g) (digs ++ [dgt])

/-- The numerator accumulation of `fractional_base`:
`for i, value in enumerate(fractional_part, 1): numerator += value * input_base ** (L - i)`;
`e` is the current exponent `L - i`, starting at `L - 1`. -/
def numLoop (b : Int) : List Int → Nat → Int
  | [], _ => 0
  | c :: rest, e => c * b ^ e + numLoop b rest (e - 1)

/-- `fractional_base` from the source. -/
def fractional_base (fractional_part : List El)
    (input_base output_base : Int) (max_depth : Nat) : Option (List El) :=
  (elVals (fractional_part.drop 1)).map fun vs =>
    let L := vs.length
    let numerator := numLoop input_base vs (L - 1)
    let denominator := input_base ^ L
    El.dot :: (fbLoop output_base max_depth 1 numerator denominator []).map El.d

/-- Length of the run of `0`-digits at the head of a list (used on the
reversed tuple, as the source's `for digit in n[-1::-1]` does). -/
def zeroRun : List El → Nat
  | [] => 0
  | e :: rest => if e = El.d 0 then zeroRun rest + 1 else 0

/-- `truncate` from the source: remove trailing `0` digits
(`n[:-count] if count > 0 else n`). -/
def truncate (n : List El) : List El :=
  let count := zeroRun n.reverse
  if count > 0 then n.take (n.length - count) else n

/-- `check_valid` from the source: markers pass; a digit `n` fails iff
`n ≥ input_base` and not (`n = 1` and `input_base = 1`). -/
def check_valid (number : List El) (input_base : Int) : Bool :=
  number.all fun e =>
    match e with
    | El.d n => decide (n < input_base) || (decide (n = 1) && decide (input_base = 1))
    | _ => true

/-- `integer_fractional_parts` from the source: split at the first `'.'`. -/
def integer_fractional_parts (number : List El) : List El × List El :=
  (number.take (firstIdx El.dot number), number.drop (firstIdx El.dot number))

/-- The inner `for i, pattern_digit in enumerate(pattern)` comparison of
`find_recurring`: `some true` = the whole pattern matched at offset `dgt`,
`some false` = an in-range mismatch broke the loop, `none` = the access
`sequence[digit + i]` was out of range (Python `IndexError`). -/
def blockMatch (sequence : List El) : Nat → List El → Option Bool
  | _, [] => some true
  | dgt, p :: ps =>
    match sequence.get? dgt with
    | none => none
    | some e => if e ≠ p then some false else blockMatch sequence (dgt + 1) ps

/-- The `while pattern_match and digit < len(sequence)` loop of
`find_recurring`, counting full contiguous repetitions of `pattern` from
offset `dgt` in steps of `period`; fuel as in `find_recurring` below. -/
def countReps (sequence pattern : List El) (period : Nat) :
    Nat → Nat → Nat → Option Nat
  | 0, _, rep => some rep
  | fuel + 1, dgt, rep =>
    if dgt < sequence.length then
      match blockMatch sequence dgt pattern with
      | none => none
      | some true => countReps sequence pattern period fuel (dgt + period) (rep + 1)
      | some false => some rep
    else some rep

/-- The `while period < len(sequence)` loop of `find_recurring`; the first
argument is the remaining number of periods (`len(sequence) - period`), the
second the current `period`, then the `(best, best_period, best_repeat)`
accumulator.  Fuel `len + 1` for `countReps` covers every iteration since
`digit` starts at `period ≥ 1` and grows by `period` each time. -/
def periodScan (sequence : List El) :
    Nat → Nat → Nat × Nat × Nat → Option (Nat × Nat × Nat)
  | 0, _, best => some best
  | r + 1, period, (best, bp, br) =>
    let period1 := period + 1
    let pattern := sequence.take period1
    match countReps sequence pattern period1 (sequence.length + 1) period1 0 with
    | none => none
    | some rep =>
      let rank := period1 * rep
      if rank > best then periodScan sequence r period1 (rank, period1, rep)
      else periodScan sequence r period1 (best, bp, br)

/-- The final `for i, digit in enumerate(pattern)` loop of `find_recurring`:
peel the tuple's last element while it equals the inspected pattern digit,
rotating `pattern_temp`; `none` models `number[-1]` on an empty tuple. -/
def peelLoop : List El → List El → List El → Option (List El × List El)
  | number, ptemp, [] => some (number, ptemp)
  | number, ptemp, dgt :: rest =>
    match number.getLast? with
    | none => none
    | some last =>
      if last = dgt then
        peelLoop number.dropLast (ptemp.drop 1 ++ ptemp.take 1) rest
      else peelLoop number ptemp rest

/-- `find_recurring` from the source. -/
def find_recurring (number : List El) (min_repeat : Int) : Option (List El) :=
  if El.dot ∉ number ∨ min_repeat < 1 then some number
  else
    let parts := integer_fractional_parts number
    let sequence := parts.2.reverse
    match periodScan sequence sequence.length 0 (0, 0, 0) with
    | none => none
    | some (best, best_period, best_repeat) =>
      if (best_repeat : Int) < min_repeat then some number
      else
        let pattern := sequence.take best_period
        let number1 := parts.1 ++ parts.2.take (parts.2.length - (best + best_period))
        match peelLoop number1 pattern pattern with
        | none => none
        | some (number2, pattern2) =>
          some (number2 ++ El.lb :: (pattern2.reverse ++ [El.rb]))

/-- `expand_recurring` from the source. -/
def expand_recurring (number : List El) (rpt : Nat) : List El :=
  if El.lb ∈ number then
    let pattern_index := firstIdx El.lb number
    let pattern := (number.drop (pattern_index + 1)).dropLast
    number.take pattern_index ++ (List.replicate (rpt + 1) pattern).flatten
  else number

/-- Modelled from the spec (§4.4), as the reference side of the C7
refinement: a full contiguous occurrence, at offset `off` of the reversed
fractional sequence `S`, of the candidate pattern formed by the first `p`
elements of `S`. -/
def specBlock (S : List El) (p off : Nat) : Bool :=
  decide (off + p ≤ S.length) && decide (∀ i, i < p → S.get? (off + i) = S.get? i)

/-- Modelled from the spec: count contiguous non-overlapping repetitions of
the first-`p` candidate pattern, scanning from offset `off`, stopping at the
first failure. -/
def specRepsAux (S : List El) (p : Nat) : Nat → Nat → Nat
  | 0, _ => 0
  | fuel + 1, off =>
    if specBlock S p off then specRepsAux S p fuel (off + p) + 1 else 0

/-- Modelled from the spec: repetitions of the first-`p` candidate pattern
starting at offset `p` (immediately after its first occurrence). -/
def specReps (S : List El) (p : Nat) : Nat :=
  specRepsAux S p (S.length + 1) p

/-- Invariant of `periodScan`'s accumulator after scanning periods `1..t`:
either no candidate has ranked positively yet, or the accumulator holds the
maximum-rank candidate, with the smallest period among rank ties. -/
def scanInv (S : List El) (t : Nat) : Nat × Nat × Nat → Prop
  | (best, bp, br) =>
    (best = 0 ∧ bp = 0 ∧ br = 0 ∧ ∀ p, 1 ≤ p → p ≤ t → p * specReps S p = 0)
    ∨ (1 ≤ bp ∧ bp ≤ t ∧ br = specReps S bp ∧ best = bp * br ∧ 0 < best
        ∧ (∀ p, 1 ≤ p → p ≤ t → p * specReps S p ≤ best)
        ∧ (∀ p, 1 ≤ p → p < bp → p * specReps S p < best))

/-- A list whose elements are all digits, each valid for base `b` in the
sense of `check_valid` and nonnegative (the spec's Digit is a nonnegative
integer). -/
def onlyDigits (l : List El) (b : Int) : Prop :=
  ∀ e ∈ l, ∃ n : Int, e = El.d n ∧ 0 ≤ n ∧ (n < b ∨ (n = 1 ∧ b = 1))

/-- The spec's Digit Sequence invariant for a valid input in base `b`
(§3): digits only, optionally one radix point, optionally one matched
bracket pair after the radix point with `']'` last. -/
def inputWF (ds : List El) (b : Int) : Prop :=
  onlyDigits ds b
  ∨ (∃ I F, ds = I ++ El.dot :: F ∧ onlyDigits I b ∧ onlyDigits F b)
  ∨ (∃ I F P, ds = I ++ El.dot :: (F ++ El.lb :: (P ++ [El.rb]))
      ∧ onlyDigits I b ∧ onlyDigits F b ∧ onlyDigits P b)

/-- A digit value admissible in the output base: below `ob`, except that
base-1 output may use the digit values 0 and 1 (see `outWF`'s base-1
clause for the stronger structural fact). -/
def outDigitOK (ob n : Int) : Prop :=
  0 ≤ n ∧ ((ob = 1 ∧ (n = 0 ∨ n = 1)) ∨ (ob ≠ 1 ∧ n < ob))

/-- The claim's output invariant: the result is digits, then at most one
radix point, then digits, then at most one matched `'['`/`']'` pair with
`']'` last; every digit value admissible for the output base; and for
base-1 output only the digit 1 appears, save a single leading 0 denoting
the value zero. -/
def outWF (out : List El) (ob : Int) : Prop :=
  (∃ Id, (∀ e ∈ Id, ∃ n : Int, e = El.d n ∧ outDigitOK ob n) ∧
    (out = Id
     ∨ (∃ Fd, (∀ e ∈ Fd, ∃ n : Int, e = El.d n ∧ outDigitOK ob n) ∧
         (out = Id ++ El.dot :: Fd
          ∨ ∃ Pd, (∀ e ∈ Pd, ∃ n : Int, e = El.d n ∧ outDigitOK ob n) ∧ Pd ≠ []
              ∧ out = Id ++ El.dot :: (Fd ++ El.lb :: (Pd ++ [El.rb]))))))
  ∧ (ob = 1 → (∀ n : Int, El.d n ∈ out → n = 1) ∨
      ∃ rest, out = El.d 0 :: rest ∧ ∀ n : Int, El.d n ∈ rest → False)

/-- The conversion block of `base` (source lines "Convert a fractional
number" / "Convert an integer number"): split at the first `'.'` if present,
convert the halves, concatenate and truncate. -/
def convertNumber (n2 : List El) (input_base output_base : Int)
    (max_depth : Nat) : Except Err (List El) :=
  if El.dot ∈ n2 then
    match integer_base (n2.take (firstIdx El.dot n2)) input_base output_base,
          fractional_base (n2.drop (firstIdx El.dot n2)) input_base output_base
            max_depth with
    | some ip, some fp => Except.ok (truncate (ip ++ fp))
    | _, _ => Except.error Err.typeError
  else
    match integer_base n2 input_base output_base with
    | some ip => Except.ok ip
    | none => Except.error Err.typeError

/-- The final recurring-detection step of `base`:
`if recurring: number = find_recurring(number, min_repeat=2)`. -/
def applyRecurring (recurring : Bool) (n3 : List El) : Except Err (List El) :=
  if recurring then
    match find_recurring n3 2 with
    | some n4 => Except.ok n4
    | none => Except.error Err.indexError
  else Except.ok n3

/-- `base` from the source, on a tuple already in `List El` form, producing
the tuple representation (the `string=True` rendering is `baseString`).
`Except.error` models the corresponding Python exception. -/
def base (number : List El) (input_base output_base : Int)
    (max_depth : Nat) (recurring : Bool) : Except Err (List El) :=
  if ¬ check_valid number input_base then Except.error Err.valueError
  else
    let n1 := if input_base = 1 then
        List.replicate (countEl (El.d 1) number) (El.d 1)
      else number
    match convertNumber (expand_recurring n1 5) input_base output_base max_depth with
    | Except.error e => Except.error e
    | Except.ok n3 => applyRecurring recurring n3

/-- `base` on a string input: the source does
`number = represent_as_tuple(number)` first. -/
def baseStr (number : String) (input_base output_base : Int)
    (max_depth : Nat) (recurring : Bool) : Except Err (List El) :=
  base (represent_as_tuple number) input_base output_base max_depth recurring

/-- `base` with `string=True`: render the result with `represent_as_string`. -/
def baseString (number : List El) (input_base output_base : Int)
    (max_depth : Nat) (recurring : Bool) : Except Err String :=
  (base number input_base output_base max_depth recurring).map represent_as_string

/-- `baseStr` with `string=True`. -/
def baseStrString (number : String) (input_base output_base : Int)
    (max_depth : Nat) (recurring : Bool) : Except Err String :=
  (baseStr number input_base output_base max_depth recurring).map represent_as_string

/-- Decimal digit character, `'0'`-`'9'`. -/
def decChar (n : Nat) : Char := Char.ofNat (48 + n)

/-- Decimal digit characters of a nonnegative integer, most significant
first, with fuel (`n + 1` is plenty: the value shrinks by `÷ 10` each step). -/
def natDecCharsLoop : Nat → Nat → List Char
  | 0, n => [decChar (n % 10)]
  | fuel + 1, n =>
    if n < 10 then [decChar n] else natDecCharsLoop fuel (n / 10) ++ [decChar (n % 10)]

/-- Decimal digit characters of `n`. -/
def natDecChars (n : Nat) : List Char := natDecCharsLoop n n

/-- Python `str` on an `int`: optional `'-'` sign and decimal digits. -/
def pyStr (n : Int) : String :=
  if n < 0 then String.mk ('-' :: natDecChars n.natAbs)
  else String.mk (natDecChars n.toNat)

/-- `base` on an `int` input: the source does `number = str(number)` and
falls through to the string branch; `pyStr` is Python's `str` on integers. -/
def baseOfInt (n : Int) (input_base output_base : Int)
    (max_depth : Nat) (recurring : Bool) : Except Err (List El) :=
  baseStr (pyStr n) input_base output_base max_depth recurring

instance instDecEqExcept {α β : Type} [DecidableEq α] [DecidableEq β] :
    DecidableEq (Except α β) := fun a b =>
  match a, b with
  | Except.ok x, Except.ok y =>
    if h : x = y then Decidable.isTrue (congrArg Except.ok h)
    else Decidable.isFalse (fun hh => h (Except.ok.inj hh))
  | Except.error x, Except.error y =>
    if h : x = y then Decidable.isTrue (congrArg Except.error h)
    else Decidable.isFalse (fun hh => h (Except.error.inj hh))
  | Except.ok _, Except.error _ => Decidable.isFalse (fun hh => Except.noConfusion hh)
  | Except.error _, Except.ok _ => Decidable.isFalse (fun hh => Except.noConfusion hh)


/-- Length of the run of `0` values at the head of an integer list: the
value-level counterpart of `zeroRun`, for fractional digit values. -/
def zeroRunV : List Int → Nat
  | [] => 0
  | v :: rest => if v = 0 then zeroRunV rest + 1 else 0

/-- Trailing-zero normalization of fractional digit values: what `truncate`
leaves of a block of fractional digits. -/
def stripzV (vs : List Int) : List Int :=
  (vs.reverse.drop (zeroRunV vs.reverse)).reverse

/-- Fractional place value: the integer numerator of the digit list `vs`
(most significant first) over `b ^ vs.length`; the closed form of the
numerator accumulated by the source's `fractional_base` loop. -/
def fracVal (b : Int) : List Int → Int
  | [] => 0
  | c :: rest => c * b ^ rest.length + fracVal b rest

/-- Long-division digit extraction: the pure integer recursion implemented
by the state of `fbLoop` once its gcd reductions are cleared away; emits the
base-`B` expansion digits of the fraction `N / D`. -/
def ldDigits (B D : Int) : Nat → Int → List Int
  | 0, _ => []
  | r + 1, N =>
    (N * B).fdiv D :: ldDigits B D r (N * B - ((N * B).fdiv D) * D)

/-! ## General lemmas about the embedded operations -/

theorem expand_recurring_of_not_mem {n : List El} (h : El.lb ∉ n) (r : Nat) :
    expand_recurring n r = n := by
  simp [expand_recurring, h]

theorem find_recurring_of_not_mem {n : List El} (h : El.dot ∉ n) (m : Int) :
    find_recurring n m = some n := by
  simp [find_recurring, h]

theorem from_base_10_int_forall_d (v b : Int) :
    ∀ e ∈ from_base_10_int v b, ∃ n, e = El.d n := by
  unfold from_base_10_int
  split
  · simp
  · split
    · intro e he
      rw [List.eq_of_mem_replicate he]
      exact ⟨1, rfl⟩
    · intro e he
      rw [List.mem_reverse] at he
      obtain ⟨i, -, rfl⟩ := List.mem_map.mp he
      exact ⟨_, rfl⟩

theorem dot_not_mem_from_base_10_int (v b : Int) :
    El.dot ∉ from_base_10_int v b := by
  intro h
  obtain ⟨n, hn⟩ := from_base_10_int_forall_d v b _ h
  exact El.noConfusion hn

/-! ## C3: concrete end-to-end scenarios -/

/-- C3: the facade meets the spec's concrete scenarios:
`base("FF0.8",16,10,string=True) == "4080.5"`;
`base("0.1",3,10,string=True) == "0.[3]"`; `base((15,15),16,8) == (3,7,7)`;
`base("0.2",10,8,max_depth=1) == (0,'.',1)`;
`base((1,9,6,'.',5,1,6),17,20) == (1,2,8,'.',5,19,10,7,17,2,13,13,1,8)`;
`base((1,1,1),1,10) == (3,)`; and
`base("0.29",10,10,max_depth=1,recurring=False) == (0,'.',2)`, i.e. excess
fractional digits are truncated toward zero, never rounded up. -/
theorem concrete_scenarios :
    baseStrString "FF0.8" 16 10 10 true = Except.ok "4080.5" ∧
    baseStrString "0.1" 3 10 10 true = Except.ok "0.[3]" ∧
    base [El.d 15, El.d 15] 16 8 10 true = Except.ok [El.d 3, El.d 7, El.d 7] ∧
    baseStr "0.2" 10 8 1 true = Except.ok [El.d 0, El.dot, El.d 1] ∧
    base [El.d 1, El.d 9, El.d 6, El.dot, El.d 5, El.d 1, El.d 6] 17 20 10 true
      = Except.ok [El.d 1, El.d 2, El.d 8, El.dot, El.d 5, El.d 19, El.d 10,
          El.d 7, El.d 17, El.d 2, El.d 13, El.d 13, El.d 1, El.d 8] ∧
    base [El.d 1, El.d 1, El.d 1] 1 10 10 true = Except.ok [El.d 3] ∧
    baseStr "0.29" 10 10 1 false = Except.ok [El.d 0, El.dot, El.d 2] := by
  refine ⟨?_, ?_, ?_, ?_, ?_, ?_, ?_⟩ <;> rfl

/-! ## C1: numeric input handling -/

/-- C1 counterexample: a direct numeric input is *not* converted exactly with
input-base validation skipped; `base(5, 2, 10)` stringifies `5`, re-parses it
as a base-2 digit string, and raises (digit `5 ≥ 2`), refuting "for every
numeric value v and every pair of bases, convert(v, b1, b2) succeeds". -/
theorem numeric_input_counterexample :
    baseOfInt 5 2 10 10 true = Except.error Err.valueError := by rfl

/-! ## C2: negative input handling -/

/-- C2 counterexample: `base(-1, 10, 10)` does not abort with any error: the
`'-'` character parses to digit value `-10`, passes validation, and the
negative value collapses to the digit sequence `(0,)`. -/
theorem negative_input_counterexample :
    baseOfInt (-1) 10 10 10 true = Except.ok [El.d 0] := by rfl

/-! ## C4: rendering of conversion results -/

/-- C4 counterexample: converting `"1.0"` from base 10 to base 10 yields
`(1, '.')` — the radix point is kept even though the result has no
fractional content — not `(1,)` as the claim states. -/
theorem render_radix_point_counterexample :
    baseStr "1.0" 10 10 10 true = Except.ok [El.d 1, El.dot] := by rfl

/-! ## C5: digit validation -/

/-- C5 counterexample: in base 1 the digit `0` is *not* rejected:
`0 ≥ 1` is false, so `check_valid` accepts it and
`base((0,), 1, 10)` returns `(0,)` (the digit contributes nothing). -/
theorem base1_zero_accepted_counterexample :
    base [El.d 0] 1 10 10 true = Except.ok [El.d 0] := by rfl

/-! ## C6: fractional digit extraction -/

/-- C6 counterexample: `fractional_base(('.', 5), 10, 10, 3)` returns
`('.', 5, 0, 0)` — exactly `max_depth = 3` digits — even though the
remainder numerator becomes `0` after the first digit; the loop never
terminates early. -/
theorem fractional_base_no_early_stop_counterexample :
    fractional_base [El.dot, El.d 5] 10 10 3
      = some [El.dot, El.d 5, El.d 0, El.d 0] := by rfl

theorem fbLoop_length (ob : Int) :
    ∀ (r i : Nat) (num den : Int) (digs : List Int),
      (fbLoop ob r i num den digs).length = digs.length + r := by
  intro r
  induction r with
  | zero => intro i num den digs; simp [fbLoop]
  | succ r ih =>
    intro i num den digs
    rw [fbLoop, ih]
    simp
    omega

/-- C6 (amended): `fractional_base` always emits exactly `max_depth`
fractional digits (one `'.'` plus `max_depth` digit elements), regardless of
whether the remainder numerator reaches `0` early; once the numerator is `0`
the remaining digits are `0`, and excess precision is truncated, never
rounded (trailing zeros are only stripped later, by `truncate` inside
`base`). -/
theorem fractional_base_digit_count (fp : List El) (ib ob : Int) (k : Nat)
    (ds : List El) (h : fractional_base fp ib ob k = some ds) :
    ds.length = k + 1 := by
  unfold fractional_base at h
  cases hv : elVals (fp.drop 1) with
  | none => rw [hv] at h; exact Option.noConfusion h
  | some vs =>
    rw [hv] at h
    simp only [Option.map_some'] at h
    cases h
    simp [fbLoop_length]

/-- C6 witness: the amended count theorem applied at
`fractional_base(('.', 5), 10, 10, 3)`. -/
theorem fractional_base_digit_count_witness :
    ([El.dot, El.d 5, El.d 0, El.d 0] : List El).length = 3 + 1 :=
  fractional_base_digit_count [El.dot, El.d 5] 10 10 3 _ (by rfl)

/-! ## Lemmas about parsing stringified integers -/

theorem parseChar_decChar {a : Nat} (h : a ≤ 9) :
    parseChar (decChar a) = El.d a := by
  interval_cases a <;> rfl

theorem natDecCharsLoop_digit_chars :
    ∀ (fuel n : Nat) (c : Char), c ∈ natDecCharsLoop fuel n →
      ∃ k, k ≤ 9 ∧ c = decChar k := by
  intro fuel
  induction fuel with
  | zero =>
    intro n c hc
    simp [natDecCharsLoop] at hc
    exact ⟨n % 10, by omega, hc⟩
  | succ fuel ih =>
    intro n c hc
    rw [natDecCharsLoop] at hc
    by_cases hn : n < 10
    · rw [if_pos hn] at hc
      simp at hc
      exact ⟨n, by omega, hc⟩
    · rw [if_neg hn] at hc
      rcases List.mem_append.mp hc with h | h
      · exact ih _ _ h
      · simp at h
        exact ⟨n % 10, by omega, h⟩

theorem map_parseChar_digit_chars :
    ∀ cs : List Char, (∀ c ∈ cs, ∃ k, k ≤ 9 ∧ c = decChar k) →
      ∃ ks : List Int, cs.map parseChar = ks.map El.d ∧
        ∀ v ∈ ks, 0 ≤ v ∧ v ≤ 9 := by
  intro cs
  induction cs with
  | nil => exact fun _ => ⟨[], rfl, by simp⟩
  | cons c rest ih =>
    intro h
    obtain ⟨k, hk, rfl⟩ := h c (by simp)
    obtain ⟨ks, hmap, hks⟩ := ih (fun u hu => h u (by simp [hu]))
    refine ⟨(k : Int) :: ks, ?_, ?_⟩
    · simp [hmap, parseChar_decChar hk]
    · intro v hv
      rcases List.mem_cons.mp hv with rfl | hv
      · constructor <;> omega
      · exact hks v hv

theorem natDecChars_two (a b : Nat) (h1 : 1 ≤ a) (h2 : a ≤ 9) (h3 : b ≤ 9) :
    natDecChars (10 * a + b) = [decChar a, decChar b] := by
  rw [natDecChars]
  obtain ⟨f, hf⟩ : ∃ f, 10 * a + b = f + 1 := ⟨10 * a + b - 1, by omega⟩
  nth_rewrite 1 [hf]
  rw [natDecCharsLoop, if_neg (by omega)]
  have hdiv : (10 * a + b) / 10 = a := by omega
  have hmod : (10 * a + b) % 10 = b := by omega
  rw [hdiv, hmod]
  obtain ⟨g, hg⟩ : ∃ g, f = g + 1 := ⟨f - 1, by omega⟩
  rw [hg, natDecCharsLoop, if_pos (by omega)]
  rfl

/-! ## Lemmas about digit-only tuples -/

theorem elVals_map_d : ∀ ks : List Int, elVals (ks.map El.d) = some ks := by
  intro ks
  induction ks with
  | nil => rfl
  | cons k rest ih => simp [elVals, ih]

theorem not_mem_map_d (ks : List Int) (e : El) (h : ∀ n, e ≠ El.d n) :
    e ∉ ks.map El.d := by
  intro hmem
  obtain ⟨k, -, hk⟩ := List.mem_map.mp hmem
  exact h k hk.symm

theorem check_valid_eq_true {number : List El} {ib : Int}
    (h : ∀ n : Int, El.d n ∈ number → n < ib ∨ (n = 1 ∧ ib = 1)) :
    check_valid number ib = true := by
  rw [check_valid, List.all_eq_true]
  intro e he
  cases e with
  | d n =>
    rcases h n he with h1 | ⟨h1, h2⟩
    · simp [h1]
    · simp [h1, h2]
  | dot => rfl
  | lb => rfl
  | rb => rfl

theorem from_base_10_int_nonpos {v : Int} (h : v ≤ 0) (b : Int) :
    from_base_10_int v b = [El.d 0] := by
  rw [from_base_10_int, if_pos h]

/-- `base` on a pure digit tuple (no markers) with a valid, non-unary input
base: the result is the output-base rendering of the place-value sum. -/
theorem base_int_only (ds : List Int) (ib ob : Int) (k : Nat) (r : Bool)
    (hvalid : check_valid (ds.map El.d) ib = true) (hib : ib ≠ 1) :
    base (ds.map El.d) ib ob k r
      = Except.ok (from_base_10_int (sumPow ib ds.reverse 0) ob) := by
  have hlb : El.lb ∉ ds.map El.d :=
    not_mem_map_d ds El.lb (fun n h => El.noConfusion h)
  have hdot : El.dot ∉ ds.map El.d :=
    not_mem_map_d ds El.dot (fun n h => El.noConfusion h)
  have hto : to_base_10_int (ds.map El.d) ib = some (sumPow ib ds.reverse 0) := by
    rw [to_base_10_int, elVals_map_d]
    rfl
  cases r <;>
    simp [base, convertNumber, applyRecurring, hvalid, hib,
      expand_recurring_of_not_mem hlb, hdot, integer_base, hto,
      find_recurring_of_not_mem (dot_not_mem_from_base_10_int _ _)]

/-- C1 (amended): a numeric input is stringified with `str` and re-parsed as
digits interpreted in `input_base`, with validation applied: a two-decimal-
digit integer `10·a + b` whose digits are below `input_base` converts as the
*value* `a·input_base + b` rendered in `output_base`. -/
theorem numeric_input_uses_input_base (a b : Nat) (ib ob : Int)
    (h1 : 1 ≤ a) (h2 : a ≤ 9) (h3 : b ≤ 9)
    (ha : (a : Int) < ib) (hb : (b : Int) < ib) :
    baseOfInt ((10 * a + b : Nat) : Int) ib ob 10 true
      = Except.ok (from_base_10_int ((a : Int) * ib + b) ob) := by
  have hparse : represent_as_tuple (pyStr ((10 * a + b : Nat) : Int))
      = [(a : Int), (b : Int)].map El.d := by
    rw [pyStr, if_neg (by omega)]
    have htn : ((10 * a + b : Nat) : Int).toNat = 10 * a + b := by omega
    rw [htn, natDecChars_two a b h1 h2 h3]
    show [decChar a, decChar b].map parseChar = _
    simp [parseChar_decChar h2, parseChar_decChar h3]
  rw [baseOfInt, baseStr, hparse]
  rw [base_int_only [(a : Int), (b : Int)] ib ob 10 true
    (check_valid_eq_true ?_) (by omega)]
  · have : sumPow ib [(b : Int), (a : Int)] 0 = (a : Int) * ib + b := by
      simp [sumPow]
      ring
    rw [show ([(a : Int), (b : Int)].reverse) = [(b : Int), (a : Int)] from rfl, this]
  · intro n hn
    simp at hn
    rcases hn with rfl | rfl
    · exact Or.inl ha
    · exact Or.inl hb

/-- C1 witness: `convert(12, 3, 10)` parses `"12"` as base-3 digits, giving
the value five, not twelve. -/
theorem numeric_input_uses_input_base_witness :
    baseOfInt ((10 * 1 + 2 : Nat) : Int) 3 10 10 true
      = Except.ok (from_base_10_int ((1 : Int) * 3 + 2) 10) :=
  numeric_input_uses_input_base 1 2 3 10 (by decide) (by decide) (by decide)
    (by decide) (by decide)

/-! ## C2 (amended): negative inputs silently collapse to zero -/

theorem sumPow_append (b : Int) (l1 l2 : List Int) :
    ∀ i, sumPow b (l1 ++ l2) i = sumPow b l1 i + sumPow b l2 (i + l1.length) := by
  induction l1 with
  | nil => intro i; simp [sumPow]
  | cons c rest ih =>
    intro i
    show c * b ^ i + sumPow b (rest ++ l2) (i + 1)
      = c * b ^ i + sumPow b rest (i + 1) + sumPow b l2 (i + (rest.length + 1))
    rw [ih (i + 1)]
    have hexp : i + (rest.length + 1) = (i + 1) + rest.length := by omega
    rw [hexp]
    ring

theorem sumPow_digits_bound :
    ∀ (vs : List Int), (∀ v ∈ vs, 0 ≤ v ∧ v ≤ 9) → ∀ i : Nat,
      sumPow 10 vs i ≤ 10 ^ (i + vs.length) - 10 ^ i := by
  intro vs
  induction vs with
  | nil => intro _ i; simp [sumPow]
  | cons v rest ih =>
    intro h i
    obtain ⟨h0, h9⟩ := h v (by simp)
    have ihb := ih (fun u hu => h u (by simp [hu])) (i + 1)
    have hp : (0 : Int) < 10 ^ i := by positivity
    have h10 : (10 : Int) ^ (i + 1) = 10 * 10 ^ i := by ring
    have hexp : i + (rest.length + 1) = (i + 1) + rest.length := by omega
    simp only [sumPow, List.length_cons, hexp]
    nlinarith

/-- C2 (amended): negative numeric inputs are never rejected — there is no
negative-value check anywhere.  A negative integer is stringified, `'-'`
parses to the digit value `-10`, every digit passes validation against base
10, the place-value sum is negative, and `from_base_10_int` maps any
non-positive value to `(0,)`: the call returns `(0,)` with no error. -/
theorem negative_input_returns_zero (n : Int) (hn : n < 0) :
    baseOfInt n 10 10 10 true = Except.ok [El.d 0] := by
  obtain ⟨ks, hmap, hks⟩ := map_parseChar_digit_chars (natDecChars n.natAbs)
    (fun c hc => natDecCharsLoop_digit_chars _ _ c hc)
  have hparse : represent_as_tuple (pyStr n) = ((-10 : Int) :: ks).map El.d := by
    rw [pyStr, if_pos hn]
    show ('-' :: natDecChars n.natAbs).map parseChar = _
    rw [List.map_cons, hmap]
    rfl
  rw [baseOfInt, baseStr, hparse]
  rw [base_int_only ((-10 : Int) :: ks) 10 10 10 true (check_valid_eq_true ?_)
    (by norm_num)]
  · have hL : sumPow 10 ks.reverse 0 ≤ 10 ^ ks.reverse.length - 1 := by
      simpa using sumPow_digits_bound ks.reverse
        (fun v hv => hks v (List.mem_reverse.mp hv)) 0
    have hrev : ((-10 : Int) :: ks).reverse = ks.reverse ++ [(-10 : Int)] := by
      simp
    have hsum : sumPow 10 (((-10 : Int) :: ks).reverse) 0
        = sumPow 10 ks.reverse 0 + (-10) * 10 ^ ks.reverse.length := by
      rw [hrev, sumPow_append]
      simp [sumPow]
    have hpow : (0 : Int) < 10 ^ ks.reverse.length := by positivity
    have hneg : sumPow 10 (((-10 : Int) :: ks).reverse) 0 ≤ 0 := by
      rw [hsum]
      nlinarith
    rw [from_base_10_int_nonpos hneg]
  · intro m hm
    rcases List.mem_cons.mp hm with h | h
    · cases h
      norm_num
    · obtain ⟨k, hk, hkd⟩ := List.mem_map.mp h
      obtain ⟨hk0, hk9⟩ := hks k hk
      cases hkd
      exact Or.inl (by omega)

/-- C2 witness: the amended theorem applied at `-7`. -/
theorem negative_input_returns_zero_witness :
    baseOfInt (-7) 10 10 10 true = Except.ok [El.d 0] :=
  negative_input_returns_zero (-7) (by norm_num)

/-! ## Truncation lemmas (for C4) -/

theorem fractional_base_shape (fp : List El) (ib ob : Int) (k : Nat)
    (l : List El) (h : fractional_base fp ib ob k = some l) :
    ∃ t : List Int, l = El.dot :: t.map El.d := by
  unfold fractional_base at h
  cases hv : elVals (fp.drop 1) with
  | none => rw [hv] at h; exact Option.noConfusion h
  | some vs =>
    rw [hv] at h
    simp only [Option.map_some'] at h
    exact ⟨_, (Option.some.inj h).symm⟩

theorem head?_drop_zeroRun : ∀ r : List El,
    (r.drop (zeroRun r)).head? ≠ some (El.d 0) := by
  intro r
  induction r with
  | nil => simp
  | cons e rest ih =>
    by_cases h : e = El.d 0
    · rw [zeroRun, if_pos h, List.drop_succ_cons]
      exact ih
    · rw [zeroRun, if_neg h, List.drop_zero]
      simp [h]

theorem truncate_eq (l : List El) :
    truncate l = (l.reverse.drop (zeroRun l.reverse)).reverse := by
  show (if 0 < zeroRun l.reverse then l.take (l.length - zeroRun l.reverse) else l) = _
  by_cases h : 0 < zeroRun l.reverse
  · rw [if_pos h,
      show l.take (l.length - zeroRun l.reverse) = l.rdrop (zeroRun l.reverse) from rfl,
      List.rdrop_eq_reverse_drop_reverse]
  · rw [if_neg h]
    have h0 : zeroRun l.reverse = 0 := by omega
    rw [h0]
    simp

theorem truncate_getLast_ne_zero (l : List El) :
    (truncate l).getLast? ≠ some (El.d 0) := by
  rw [truncate_eq, List.getLast?_reverse]
  exact head?_drop_zeroRun l.reverse

theorem zeroRun_le_length : ∀ r : List El, zeroRun r ≤ r.length := by
  intro r
  induction r with
  | nil => simp [zeroRun]
  | cons e rest ih =>
    by_cases h : e = El.d 0
    · rw [zeroRun, if_pos h]
      simp
      omega
    · rw [zeroRun, if_neg h]
      simp

theorem zeroRun_append_ne {e : El} (he : e ≠ El.d 0) (X Y : List El) :
    zeroRun (X ++ e :: Y) = zeroRun X := by
  induction X with
  | nil => simp [zeroRun, he]
  | cons x rest ih =>
    by_cases h : x = El.d 0
    · rw [List.cons_append, zeroRun, if_pos h, ih, zeroRun, if_pos h]
    · rw [List.cons_append, zeroRun, if_neg h, zeroRun, if_neg h]

theorem truncate_append_dot (A G : List El) :
    truncate (A ++ El.dot :: G)
      = A ++ El.dot :: (G.reverse.drop (zeroRun G.reverse)).reverse := by
  rw [truncate_eq]
  have hrev : (A ++ El.dot :: G).reverse = G.reverse ++ El.dot :: A.reverse := by
    simp
  rw [hrev, zeroRun_append_ne (fun h => El.noConfusion h),
    List.drop_append_of_le_length (zeroRun_le_length G.reverse)]
  simp

/-- C4 (amended): the radix point survives rendering even when the converted
number has no remaining fractional digits (`"1.0"` → `(1, '.')`), and
trailing fractional zeros are always stripped — whether or not the value was
exact — so a fractional-input result never ends in a zero digit. -/
theorem render_truncation_rules :
    (baseStr "1.0" 10 10 10 true = Except.ok [El.d 1, El.dot]) ∧
    ∀ (ds : List El) (ib ob : Int) (k : Nat) (out : List El),
      El.dot ∈ ds → El.lb ∉ ds → ib ≠ 1 →
      base ds ib ob k false = Except.ok out →
      out ≠ [] ∧ out.getLast? ≠ some (El.d 0) := by
  constructor
  · rfl
  · intro ds ib ob k out hdot hlb hib hok
    by_cases hv : check_valid ds ib
    · rw [base, if_neg (by simpa using hv)] at hok
      simp only [hib, if_false, Bool.false_eq_true, reduceIte,
        expand_recurring_of_not_mem hlb] at hok
      cases hcv : convertNumber ds ib ob k with
      | error e =>
        rw [hcv] at hok
        exact Except.noConfusion hok
      | ok n3 =>
        rw [hcv] at hok
        simp only [applyRecurring, Bool.false_eq_true, reduceIte] at hok
        have hout : out = n3 := (Except.ok.inj hok).symm
        rw [convertNumber, if_pos hdot] at hcv
        cases hI : integer_base (ds.take (firstIdx El.dot ds)) ib ob with
        | none =>
          cases hF : fractional_base (ds.drop (firstIdx El.dot ds)) ib ob k <;>
            rw [hI, hF] at hcv <;> exact Except.noConfusion hcv
        | some ip =>
          cases hF : fractional_base (ds.drop (firstIdx El.dot ds)) ib ob k with
          | none =>
            rw [hI, hF] at hcv
            exact Except.noConfusion hcv
          | some fp =>
            rw [hI, hF] at hcv
            have hn3 : n3 = truncate (ip ++ fp) := (Except.ok.inj hcv).symm
            obtain ⟨t, rfl⟩ := fractional_base_shape _ _ _ _ _ hF
            constructor
            · rw [hout, hn3, truncate_append_dot]
              simp
            · rw [hout, hn3]
              exact truncate_getLast_ne_zero _
    · rw [base, if_pos (by simpa using hv)] at hok
      exact Except.noConfusion hok

/-- C4 witness: the amended theorem applied to `"1.50"` (an exact value whose
trailing zero is still stripped): the output is `(1, '.', 5)`, which is
nonempty and does not end in a zero digit. -/
theorem render_truncation_rules_witness :
    ([El.d 1, El.dot, El.d 5] : List El) ≠ [] ∧
      ([El.d 1, El.dot, El.d 5] : List El).getLast? ≠ some (El.d 0) :=
  render_truncation_rules.2 (represent_as_tuple "1.50") 10 10 10
    [El.d 1, El.dot, El.d 5] (by decide) (by decide) (by decide) (by rfl)

/-! ## C5 (amended): exact characterization of InvalidDigit -/

theorem check_valid_eq_false_iff (number : List El) (ib : Int) :
    check_valid number ib = false ↔
      ∃ n : Int, El.d n ∈ number ∧ ib ≤ n ∧ ¬(n = 1 ∧ ib = 1) := by
  constructor
  · intro h
    by_contra hc
    push_neg at hc
    have hv : check_valid number ib = true := by
      apply check_valid_eq_true
      intro n hn
      by_cases hlt : n < ib
      · exact Or.inl hlt
      · exact Or.inr (hc n hn (by omega))
    rw [hv] at h
    exact Bool.noConfusion h
  · rintro ⟨n, hmem, hge, hnot⟩
    cases hcv : check_valid number ib with
    | false => rfl
    | true =>
      exfalso
      rw [check_valid, List.all_eq_true] at hcv
      have := hcv (El.d n) hmem
      simp only [Bool.or_eq_true, Bool.and_eq_true, decide_eq_true_eq] at this
      rcases this with h | ⟨h1, h2⟩
      · omega
      · exact hnot ⟨h1, h2⟩

theorem convertNumber_ne_valueError (n2 : List El) (ib ob : Int) (k : Nat) :
    convertNumber n2 ib ob k ≠ Except.error Err.valueError := by
  intro h
  rw [convertNumber] at h
  split at h
  · split at h <;> simp_all
  · split at h <;> simp_all

theorem applyRecurring_ne_valueError (r : Bool) (n3 : List El) :
    applyRecurring r n3 ≠ Except.error Err.valueError := by
  intro h
  rw [applyRecurring] at h
  split at h
  · split at h <;> simp_all
  · exact Except.noConfusion h

/-- C5 (amended): `base` fails with the InvalidDigit `ValueError` exactly
when some digit element's value is ≥ the input base and is not the special
case digit 1 with base 1.  Digits *below* the base always pass, so base 1
accepts the digits 0 and 1 (and every negative value) and rejects exactly
the values ≥ 2 — digit 0 is not rejected in base 1. -/
theorem invalid_digit_characterization (number : List El) (ib ob : Int)
    (k : Nat) (r : Bool) :
    base number ib ob k r = Except.error Err.valueError ↔
      ∃ n : Int, El.d n ∈ number ∧ ib ≤ n ∧ ¬(n = 1 ∧ ib = 1) := by
  rw [← check_valid_eq_false_iff number ib]
  constructor
  · intro h
    cases hcv : check_valid number ib with
    | false => rfl
    | true =>
      exfalso
      rw [base, if_neg (by simp [hcv])] at h
      simp only [] at h
      cases hconv : convertNumber
          (expand_recurring
            (if ib = 1 then List.replicate (countEl (El.d 1) number) (El.d 1)
             else number) 5) ib ob k with
      | error e =>
        rw [hconv] at h
        exact convertNumber_ne_valueError _ _ _ _ (hconv.trans (Except.error.inj h ▸ rfl))
      | ok n3 =>
        rw [hconv] at h
        exact applyRecurring_ne_valueError r n3 h
  · intro h
    rw [base, if_pos (by simp [h])]

/-- C5 witness: the characterization applied at `((5,), 2)`: digit 5 is ≥
base 2, so the call raises. -/
theorem invalid_digit_characterization_witness :
    base [El.d 5] 2 10 10 true = Except.error Err.valueError :=
  (invalid_digit_characterization [El.d 5] 2 10 10 true).mpr
    ⟨5, by decide, by decide, by decide⟩

/-! ## The recurring-pattern scan (C7, C10) -/

theorem blockMatch_eq_some_true_iff (S : List El) :
    ∀ (pat : List El) (dgt : Nat),
      blockMatch S dgt pat = some true ↔
        ∀ i, i < pat.length → S.get? (dgt + i) = pat.get? i := by
  intro pat
  induction pat with
  | nil => intro dgt; simp [blockMatch]
  | cons q qs ih =>
    intro dgt
    rw [blockMatch]
    split
    next hS =>
      constructor
      · intro h
        exact Option.noConfusion h
      · intro h
        have h0 := h 0 (by simp)
        rw [Nat.add_zero, hS] at h0
        exact Option.noConfusion h0
    next e hS =>
      by_cases he : e = q
      · subst he
        rw [if_neg (by simp)]
        rw [ih (dgt + 1)]
        constructor
        · intro h i hi
          cases i with
          | zero => simpa using hS
          | succ j =>
            have hj := h j (by simpa using hi)
            rw [show dgt + (j + 1) = dgt + 1 + j by omega]
            simpa using hj
        · intro h i hi
          have hj := h (i + 1) (by simpa using hi)
          rw [show dgt + 1 + i = dgt + (i + 1) by omega]
          simpa using hj
      · rw [if_pos he]
        constructor
        · intro h
          exact absurd (Option.some.inj h) (by simp)
        · intro h
          have h0 := h 0 (by simp)
          rw [Nat.add_zero, hS] at h0
          exact absurd (Option.some.inj h0) he

theorem blockMatch_ne_none {S : List El}
    (hlast : S.get? (S.length - 1) = some El.dot) :
    ∀ (pat : List El), El.dot ∉ pat → ∀ dgt, dgt < S.length →
      blockMatch S dgt pat ≠ none := by
  intro pat
  induction pat with
  | nil => intro _ dgt _; simp [blockMatch]
  | cons q qs ih =>
    intro hnot dgt hlt
    rw [blockMatch]
    split
    next hS =>
      have := List.get?_eq_none.mp hS
      omega
    next e hS =>
      by_cases he : e = q
      · rw [if_neg (by simp [he])]
        have hq : q ≠ El.dot := fun h => hnot (h ▸ List.mem_cons_self q qs)
        have hne : dgt ≠ S.length - 1 := by
          intro h
          rw [h, hlast] at hS
          exact hq (by simpa [he] using hS.symm)
        exact ih (fun h => hnot (List.mem_cons_of_mem q h)) (dgt + 1) (by omega)
      · rw [if_pos he]
        exact fun h => Option.noConfusion h

theorem specBlock_eq_true_iff {S : List El} {p dgt : Nat} :
    specBlock S p dgt = true ↔
      dgt + p ≤ S.length ∧ ∀ i, i < p → S.get? (dgt + i) = S.get? i := by
  simp [specBlock]

theorem blockMatch_take_eq_specBlock {S : List El} {p dgt : Nat} (hp : 1 ≤ p)
    (hple : p ≤ S.length) (hne : blockMatch S dgt (S.take p) ≠ none) :
    blockMatch S dgt (S.take p) = some (specBlock S p dgt) := by
  have hlen : (S.take p).length = p := by simp; omega
  have htake : ∀ i, i < p → (S.take p).get? i = S.get? i := by
    intro i hi
    simp only [List.get?_eq_getElem?]
    exact List.getElem?_take_of_lt hi
  have hiff := blockMatch_eq_some_true_iff S (S.take p) dgt
  rw [hlen] at hiff
  cases hb : blockMatch S dgt (S.take p) with
  | none => exact absurd hb hne
  | some b =>
    congr 1
    cases b with
    | true =>
      have hall := hiff.mp hb
      symm
      rw [specBlock_eq_true_iff]
      constructor
      · have hlastidx := hall (p - 1) (by omega)
        rw [htake (p - 1) (by omega)] at hlastidx
        have hsome : S.get? (p - 1) ≠ none := by
          intro h
          have := List.get?_eq_none.mp h
          omega
        cases hgs : S.get? (p - 1) with
        | none => exact absurd hgs hsome
        | some v =>
          rw [hgs] at hlastidx
          have hlt : dgt + (p - 1) < S.length := by
            by_contra hge
            rw [List.get?_eq_none.mpr (by omega)] at hlastidx
            exact Option.noConfusion hlastidx
          omega
      · intro i hi
        rw [hall i hi, htake i hi]
    | false =>
      symm
      rw [Bool.eq_false_iff]
      intro hsb
      rw [specBlock_eq_true_iff] at hsb
      have : blockMatch S dgt (S.take p) = some true := by
        rw [hiff]
        intro i hi
        rw [htake i hi]
        exact hsb.2 i hi
      rw [hb] at this
      exact absurd (Option.some.inj this) (by simp)

theorem countReps_eq_specRepsAux {S : List El}
    (hlast : S.get? (S.length - 1) = some El.dot) (p : Nat) (hp : 1 ≤ p)
    (hple : p ≤ S.length) :
    ∀ (fuel dgt rep : Nat), El.dot ∉ S.take p ∨ S.length ≤ dgt →
      countReps S (S.take p) p fuel dgt rep
        = some (rep + specRepsAux S p fuel dgt) := by
  intro fuel
  induction fuel with
  | zero => intro dgt rep _; simp [countReps, specRepsAux]
  | succ fuel ih =>
    intro dgt rep hsafe
    rw [countReps, specRepsAux]
    by_cases hlt : dgt < S.length
    · have hpatfree : El.dot ∉ S.take p := hsafe.resolve_right (by omega)
      have hbm := blockMatch_ne_none hlast _ hpatfree dgt hlt
      rw [if_pos hlt, blockMatch_take_eq_specBlock hp hple hbm]
      cases hsb : specBlock S p dgt with
      | true =>
        show countReps S (S.take p) p fuel (dgt + p) (rep + 1)
          = some (rep + (specRepsAux S p fuel (dgt + p) + 1))
        rw [ih (dgt + p) (rep + 1) (Or.inl hpatfree)]
        congr 1
        omega
      | false =>
        show (some rep : Option Nat) = some (rep + 0)
        congr 1
    · rw [if_neg hlt]
      have hsb : specBlock S p dgt = false := by
        rw [Bool.eq_false_iff]
        intro h
        rw [specBlock_eq_true_iff] at h
        omega
      rw [hsb]
      show (some rep : Option Nat) = some (rep + 0)
      congr 1

theorem periodScan_invariant {S : List El}
    (hlast : S.get? (S.length - 1) = some El.dot)
    (hfree : ∀ p, p ≤ S.length - 1 → El.dot ∉ S.take p) :
    ∀ (r period : Nat) (acc : Nat × Nat × Nat),
      period + r ≤ S.length → scanInv S period acc →
      ∃ res, periodScan S r period acc = some res ∧ scanInv S (period + r) res := by
  intro r
  induction r with
  | zero =>
    intro period acc _ hinv
    exact ⟨acc, rfl, by simpa using hinv⟩
  | succ r ih =>
    intro period acc hle hinv
    obtain ⟨best, bp, br⟩ := acc
    have hp1 : 1 ≤ period + 1 := by omega
    have hple : period + 1 ≤ S.length := by omega
    have hsafe : El.dot ∉ S.take (period + 1) ∨ S.length ≤ period + 1 := by
      by_cases h : period + 1 ≤ S.length - 1
      · exact Or.inl (hfree _ h)
      · exact Or.inr (by omega)
    have hcr := countReps_eq_specRepsAux hlast (period + 1) hp1 hple
        (S.length + 1) (period + 1) 0 hsafe
    have hcr' : countReps S (S.take (period + 1)) (period + 1) (S.length + 1)
        (period + 1) 0 = some (specReps S (period + 1)) := by
      rw [hcr, specReps]
      congr 1
      omega
    simp only [periodScan]
    rw [hcr']
    have hgoalshape : ∀ res, periodScan S r (period + 1) res = some res →
        True := fun _ _ => trivial
    by_cases hrank : (period + 1) * specReps S (period + 1) > best
    · show ∃ res, (if (period + 1) * specReps S (period + 1) > best
          then periodScan S r (period + 1)
            ((period + 1) * specReps S (period + 1), period + 1,
              specReps S (period + 1))
          else periodScan S r (period + 1) (best, bp, br)) = some res
        ∧ scanInv S (period + (r + 1)) res
      rw [if_pos hrank]
      have hinv' : scanInv S (period + 1)
          ((period + 1) * specReps S (period + 1), period + 1,
            specReps S (period + 1)) := by
        right
        refine ⟨by omega, by omega, rfl, rfl, by omega, ?_, ?_⟩
        · intro p hp hpt
          by_cases hpp : p ≤ period
          · rcases hinv with ⟨h1, h2, h3, h4⟩ | ⟨h1, h2, h3, h4, h5, h6, h7⟩
            · have := h4 p hp hpp
              omega
            · have := h6 p hp hpp
              omega
          · have hpe : p = period + 1 := by omega
            rw [hpe]
        · intro p hp hpt
          rcases hinv with ⟨h1, h2, h3, h4⟩ | ⟨h1, h2, h3, h4, h5, h6, h7⟩
          · have := h4 p hp (by omega)
            omega
          · have := h6 p hp (by omega)
            omega
      obtain ⟨res, hres, hresinv⟩ := ih (period + 1) _ (by omega) hinv'
      refine ⟨res, hres, ?_⟩
      rw [show period + (r + 1) = period + 1 + r by omega]
      exact hresinv
    · show ∃ res, (if (period + 1) * specReps S (period + 1) > best
          then periodScan S r (period + 1)
            ((period + 1) * specReps S (period + 1), period + 1,
              specReps S (period + 1))
          else periodScan S r (period + 1) (best, bp, br)) = some res
        ∧ scanInv S (period + (r + 1)) res
      rw [if_neg hrank]
      have hinv' : scanInv S (period + 1) (best, bp, br) := by
        rcases hinv with ⟨h1, h2, h3, h4⟩ | ⟨h1, h2, h3, h4, h5, h6, h7⟩
        · left
          refine ⟨h1, h2, h3, ?_⟩
          intro p hp hpt
          by_cases hpp : p ≤ period
          · exact h4 p hp hpp
          · have hpe : p = period + 1 := by omega
            rw [hpe]
            omega
        · right
          refine ⟨h1, by omega, h3, h4, h5, ?_, h7⟩
          intro p hp hpt
          by_cases hpp : p ≤ period
          · exact h6 p hp hpp
          · have hpe : p = period + 1 := by omega
            rw [hpe]
            omega
      obtain ⟨res, hres, hresinv⟩ := ih (period + 1) _ (by omega) hinv'
      refine ⟨res, hres, ?_⟩
      rw [show period + (r + 1) = period + 1 + r by omega]
      exact hresinv

theorem specRepsAux_block (S : List El) (p : Nat) :
    ∀ (fuel off n : Nat), specRepsAux S p fuel off = n → ∀ j, j < n →
      specBlock S p (off + p * j) = true := by
  intro fuel
  induction fuel with
  | zero =>
    intro off n h j hj
    rw [specRepsAux] at h
    omega
  | succ fuel ih =>
    intro off n h j hj
    rw [specRepsAux] at h
    by_cases hs : specBlock S p off
    · rw [if_pos hs] at h
      cases j with
      | zero => simpa using hs
      | succ j' =>
        have hblk := ih (off + p) (specRepsAux S p fuel (off + p)) rfl j' (by omega)
        rw [show off + p * (j' + 1) = off + p + p * j' by ring]
        exact hblk
    · rw [if_neg hs] at h
      omega

theorem specReps_first_block {S : List El} {p : Nat} (h : 1 ≤ specReps S p) :
    specBlock S p p = true := by
  have := specRepsAux_block S p (S.length + 1) p (specReps S p) rfl 0 (by omega)
  simpa using this

theorem specReps_last_block {S : List El} {p : Nat} (h : 1 ≤ specReps S p) :
    specBlock S p (p * specReps S p) = true := by
  have hb := specRepsAux_block S p (S.length + 1) p (specReps S p) rfl
    (specReps S p - 1) (by omega)
  have harith : p + p * (specReps S p - 1) = p * specReps S p := by
    obtain ⟨m, hm⟩ : ∃ m, specReps S p = m + 1 := ⟨specReps S p - 1, by omega⟩
    rw [hm, Nat.add_sub_cancel, Nat.mul_succ]
    omega
  rw [harith] at hb
  exact hb

theorem peelLoop_cons_some {number : List El} {last : El}
    (h : number.getLast? = some last) (ptemp : List El) (d : El)
    (rest : List El) :
    peelLoop number ptemp (d :: rest)
      = if last = d then
          peelLoop number.dropLast (ptemp.drop 1 ++ ptemp.take 1) rest
        else peelLoop number ptemp rest := by
  rw [peelLoop, h]

theorem peelLoop_structure :
    ∀ (pat : List El), El.dot ∉ pat → ∀ (ptemp I K : List El),
      ∃ t p2, peelLoop (I ++ El.dot :: K) ptemp pat
          = some (I ++ El.dot :: K.take t, p2)
        ∧ t ≤ K.length ∧ (∀ e ∈ p2, e ∈ ptemp) ∧ p2.length = ptemp.length := by
  intro pat
  induction pat with
  | nil =>
    intro _ ptemp I K
    refine ⟨K.length, ptemp, ?_, Nat.le_refl _, fun e he => he, rfl⟩
    rw [peelLoop, List.take_length]
  | cons d rest ih =>
    intro hpat ptemp I K
    have hd : d ≠ El.dot := fun h => hpat (h ▸ List.mem_cons_self d rest)
    have hrest : El.dot ∉ rest := fun h => hpat (List.mem_cons_of_mem d h)
    rcases List.eq_nil_or_concat K with rfl | ⟨K0, x, rfl⟩
    · have hlast : (I ++ El.dot :: ([] : List El)).getLast? = some El.dot :=
        List.getLast?_concat I
      rw [peelLoop_cons_some hlast, if_neg (fun h => hd h.symm)]
      exact ih hrest ptemp I []
    · simp only [List.concat_eq_append]
      have hconc : I ++ El.dot :: (K0 ++ [x]) = (I ++ El.dot :: K0) ++ [x] := by
        simp
      have hlast : (I ++ El.dot :: (K0 ++ [x])).getLast? = some x := by
        rw [hconc]
        exact List.getLast?_concat _
      rw [peelLoop_cons_some hlast]
      by_cases hx : x = d
      · rw [if_pos hx]
        have hdl : (I ++ El.dot :: (K0 ++ [x])).dropLast = I ++ El.dot :: K0 := by
          rw [hconc]
          exact List.dropLast_concat
        rw [hdl]
        obtain ⟨t, p2, heq, ht, hsub, hlen⟩ :=
          ih hrest (ptemp.drop 1 ++ ptemp.take 1) I K0
        refine ⟨t, p2, ?_, by simp; omega, ?_, ?_⟩
        · rw [heq]
          congr 3
          rw [List.take_append_of_le_length ht]
        · intro e he
          rcases List.mem_append.mp (hsub e he) with h | h
          · exact List.drop_subset _ _ h
          · exact List.take_subset _ _ h
        · rw [hlen]
          simp
          omega
      · rw [if_neg hx]
        exact ih hrest ptemp I (K0 ++ [x])

theorem countEl_eq_zero_iff (t : El) : ∀ l : List El, countEl t l = 0 ↔ t ∉ l := by
  intro l
  induction l with
  | nil => simp [countEl]
  | cons e rest ih =>
    rw [countEl]
    by_cases h : e = t
    · subst h
      simp
    · rw [if_neg h, Nat.zero_add, ih]
      constructor
      · intro hnr hmem
        rcases List.mem_cons.mp hmem with h1 | h1
        · exact h h1.symm
        · exact hnr h1
      · intro hn hmem
        exact hn (List.mem_cons_of_mem _ hmem)

theorem countEl_dot_decomp : ∀ {number : List El}, countEl El.dot number = 1 →
    ∃ I F, number = I ++ El.dot :: F ∧ El.dot ∉ I ∧ El.dot ∉ F := by
  intro number
  induction number with
  | nil => intro h; simp [countEl] at h
  | cons e rest ih =>
    intro h
    rw [countEl] at h
    by_cases he : e = El.dot
    · rw [if_pos he] at h
      refine ⟨[], rest, by simp [he], by simp, ?_⟩
      exact (countEl_eq_zero_iff _ _).mp (by omega)
    · rw [if_neg he] at h
      obtain ⟨I, F, hform, hIn, hFn⟩ := ih (by omega)
      refine ⟨e :: I, F, by simp [hform], ?_, hFn⟩
      intro hmem
      rcases List.mem_cons.mp hmem with h1 | h1
      · exact he h1.symm
      · exact hIn h1

theorem firstIdx_append_not_mem {I : List El} {t : El} (hI : t ∉ I)
    (F : List El) : firstIdx t (I ++ t :: F) = I.length := by
  induction I with
  | nil => simp [firstIdx]
  | cons e rest ih =>
    rw [List.cons_append, firstIdx,
      if_neg (fun h => hI (by rw [← h]; exact List.mem_cons_self e rest)),
      ih (fun h => hI (List.mem_cons_of_mem e h))]
    simp

theorem integer_fractional_parts_decomp {I F : List El} (hI : El.dot ∉ I) :
    integer_fractional_parts (I ++ El.dot :: F) = (I, El.dot :: F) := by
  rw [integer_fractional_parts, firstIdx_append_not_mem hI]
  congr 1
  · rw [List.take_append_of_le_length (Nat.le_refl _), List.take_length]
  · rw [List.drop_append_of_le_length (Nat.le_refl _), List.drop_length,
      List.nil_append]

theorem seq_last_dot (F : List El) :
    (F.reverse ++ [El.dot]).get? ((F.reverse ++ [El.dot]).length - 1)
      = some El.dot := by
  have hlen : (F.reverse ++ [El.dot]).length - 1 = F.reverse.length := by simp
  rw [hlen, List.get?_eq_getElem?, List.getElem?_append_right (Nat.le_refl _)]
  simp

theorem seq_take_dot_free {F : List El} (hF : El.dot ∉ F) {p : Nat}
    (hp : p ≤ F.reverse.length) : El.dot ∉ (F.reverse ++ [El.dot]).take p := by
  rw [List.take_append_of_le_length hp]
  intro h
  exact hF (List.mem_reverse.mp (List.take_subset _ _ h))

theorem find_recurring_scan_some {number : List El} {mr : Int}
    (hguard : ¬ (El.dot ∉ number ∨ mr < 1)) {best bp br : Nat}
    (hscan : periodScan ((integer_fractional_parts number).2.reverse)
        ((integer_fractional_parts number).2.reverse).length 0 (0, 0, 0)
      = some (best, bp, br)) :
    find_recurring number mr
      = if (br : Int) < mr then some number
        else
          match peelLoop
              ((integer_fractional_parts number).1 ++
                (integer_fractional_parts number).2.take
                  ((integer_fractional_parts number).2.length - (best + bp)))
              (((integer_fractional_parts number).2.reverse).take bp)
              (((integer_fractional_parts number).2.reverse).take bp) with
          | none => none
          | some (number2, pattern2) =>
            some (number2 ++ El.lb :: (pattern2.reverse ++ [El.rb])) := by
  rw [find_recurring, if_neg hguard]
  simp only []
  rw [hscan]

theorem find_recurring_main {I F : List El} (hI : El.dot ∉ I) (hF : El.dot ∉ F)
    (mr : Int) (hmr : 1 ≤ mr) :
    ∃ best bp br,
      periodScan (F.reverse ++ [El.dot]) (F.reverse ++ [El.dot]).length 0 (0, 0, 0)
        = some (best, bp, br)
      ∧ scanInv (F.reverse ++ [El.dot]) (F.reverse ++ [El.dot]).length (best, bp, br)
      ∧ ((br : Int) < mr →
          find_recurring (I ++ El.dot :: F) mr = some (I ++ El.dot :: F))
      ∧ (¬ (br : Int) < mr →
          ∃ (t : Nat) (p2 : List El), t ≤ F.length
            ∧ (∀ e ∈ p2, e ∈ (F.reverse ++ [El.dot]).take bp)
            ∧ 1 ≤ bp ∧ bp ≤ F.length ∧ p2.length = bp
            ∧ find_recurring (I ++ El.dot :: F) mr
              = some ((I ++ El.dot :: F.take t) ++ El.lb :: (p2.reverse ++ [El.rb]))) := by
  have hlast := seq_last_dot F
  have hfree : ∀ p, p ≤ (F.reverse ++ [El.dot]).length - 1 →
      El.dot ∉ (F.reverse ++ [El.dot]).take p := by
    intro p hp
    exact seq_take_dot_free hF (by simpa using hp)
  obtain ⟨⟨best, bp, br⟩, hscan, hinv⟩ :=
    periodScan_invariant hlast hfree (F.reverse ++ [El.dot]).length 0 (0, 0, 0)
      (by omega) (Or.inl ⟨rfl, rfl, rfl, fun p hp hp0 => by omega⟩)
  rw [Nat.zero_add] at hinv
  have hseq : (integer_fractional_parts (I ++ El.dot :: F)).2.reverse
      = F.reverse ++ [El.dot] := by
    rw [integer_fractional_parts_decomp hI]
    simp
  have hscan' : periodScan ((integer_fractional_parts (I ++ El.dot :: F)).2.reverse)
      ((integer_fractional_parts (I ++ El.dot :: F)).2.reverse).length 0 (0, 0, 0)
      = some (best, bp, br) := by
    rw [hseq]
    exact hscan
  have hdotmem : El.dot ∈ I ++ El.dot :: F :=
    List.mem_append.mpr (Or.inr (List.mem_cons_self _ _))
  have hguard : ¬ (El.dot ∉ (I ++ El.dot :: F) ∨ mr < 1) := by
    push_neg
    exact ⟨hdotmem, by omega⟩
  refine ⟨best, bp, br, hscan, hinv, ?_, ?_⟩
  · intro hlt
    rw [find_recurring_scan_some hguard hscan', if_pos hlt]
  · intro hge
    have hbr1 : 1 ≤ br := by omega
    rcases hinv with ⟨h1, h2, h3, h4⟩ | ⟨hbp1, hbple, hbrspec, hbest, hpos, hmax, htie⟩
    · omega
    · have hSlen : (F.reverse ++ [El.dot]).length = F.length + 1 := by simp
      have hsr : 1 ≤ specReps (F.reverse ++ [El.dot]) bp := hbrspec ▸ hbr1
      have hfb := specReps_first_block hsr
      have hlb := specReps_last_block hsr
      rw [specBlock_eq_true_iff] at hfb hlb
      have hbpF : bp ≤ F.length := by omega
      have hpat : El.dot ∉ (F.reverse ++ [El.dot]).take bp :=
        seq_take_dot_free hF (by simpa using hbpF)
      have hstrict : bp * specReps (F.reverse ++ [El.dot]) bp + bp ≤ F.length := by
        by_contra hgt
        have hidx := hlb.2 (bp - 1) (by omega)
        have hlen1 : bp * specReps (F.reverse ++ [El.dot]) bp + (bp - 1)
            = (F.reverse ++ [El.dot]).length - 1 := by
          rw [hSlen]
          omega
        rw [hlen1, seq_last_dot F] at hidx
        have hb1 : bp - 1 < F.reverse.length := by simp; omega
        have hgl : (F.reverse ++ [El.dot]).get? (bp - 1)
            = F.reverse.get? (bp - 1) := by
          rw [List.get?_eq_getElem?, List.get?_eq_getElem?,
            List.getElem?_append_left hb1]
        rw [hgl] at hidx
        exact hF (List.mem_reverse.mp (List.get?_mem hidx.symm))
      have hm : best + bp ≤ F.length := by
        rw [hbest, hbrspec]
        omega
      have hKlen : (F.take (F.length - (best + bp))).length
          = F.length - (best + bp) := by
        simp
      have hn1 : (integer_fractional_parts (I ++ El.dot :: F)).1 ++
          (integer_fractional_parts (I ++ El.dot :: F)).2.take
            ((integer_fractional_parts (I ++ El.dot :: F)).2.length - (best + bp))
          = I ++ El.dot :: F.take (F.length - (best + bp)) := by
        rw [integer_fractional_parts_decomp hI]
        have hlen2 : (El.dot :: F).length - (best + bp)
            = (F.length - (best + bp)) + 1 := by
          simp
          omega
        rw [hlen2]
        rfl
      obtain ⟨t, p2, hpeel, ht, hsub, hplen⟩ := peelLoop_structure _ hpat
        ((F.reverse ++ [El.dot]).take bp) I (F.take (F.length - (best + bp)))
      have hplen' : p2.length = bp := by
        rw [hplen]
        simp
        omega
      refine ⟨t, p2, ?_, hsub, hbp1, hbpF, hplen', ?_⟩
      · rw [hKlen] at ht
        omega
      · rw [find_recurring_scan_some hguard hscan', if_neg hge, hseq, hn1, hpeel]
        have htake : (F.take (F.length - (best + bp))).take t = F.take t := by
          rw [List.take_take]
          congr 1
          rw [hKlen] at ht
          omega
        rw [htake]

/-- C10: for every input tuple containing exactly one `'.'` marker, every
index access `sequence[digit + i]` of `find_recurring`'s inner scan (and its
`number[-1]` accesses) stays in bounds: the Option-valued embedding never
reaches its out-of-range branch.  The reversed fractional sequence ends with
`'.'`, which no dot-free candidate pattern element equals, so every scan
mismatches at or before the final index. -/
theorem find_recurring_index_safety (number : List El) (mr : Int)
    (h : countEl El.dot number = 1) : (find_recurring number mr).isSome := by
  by_cases hmr : mr < 1
  · rw [find_recurring, if_pos (Or.inr hmr)]
    rfl
  · obtain ⟨I, F, rfl, hI, hF⟩ := countEl_dot_decomp h
    obtain ⟨best, bp, br, hscan, hinv, hlt, hge⟩ :=
      find_recurring_main hI hF mr (by omega)
    by_cases hbr : (br : Int) < mr
    · rw [hlt hbr]
      rfl
    · obtain ⟨t, p2, -, -, -, -, -, heq⟩ := hge hbr
      rw [heq]
      rfl

/-- C10 witness: the safety theorem applied at the docstring input
`(3, 2, 1, '.', 1, 2, 3, 1, 2, 3)` with `min_repeat = 1`. -/
theorem find_recurring_index_safety_witness :
    (find_recurring [El.d 3, El.d 2, El.d 1, El.dot, El.d 1, El.d 2, El.d 3,
        El.d 1, El.d 2, El.d 3] 1).isSome :=
  find_recurring_index_safety _ 1 (by decide)

/-- C7: `find_recurring` reverses the fractional part into a sequence `S`
and scans candidate periods `p = 1 .. len(S)`, counting contiguous
non-overlapping repetitions of the first `p` elements of `S` starting at
offset `p` (the spec-side count `specReps`); the resulting accumulator
`(best, bp, br)` satisfies: `best` is the global maximum of the rank
`p · specReps S p`, the selected period `bp` is the smallest one attaining
it (only a strictly greater rank replaces the current best), `br` is that
period's repetition count, and whenever `br < min_repeat` the original
number is returned unchanged — so `min_repeat = 1` demands the pattern
appear at least twice in total. -/
theorem find_recurring_selection (number : List El) (mr : Int)
    (hone : countEl El.dot number = 1) (hmr : 1 ≤ mr) :
    ∃ best bp br,
      periodScan ((integer_fractional_parts number).2.reverse)
          ((integer_fractional_parts number).2.reverse).length 0 (0, 0, 0)
        = some (best, bp, br)
      ∧ (∀ p, 1 ≤ p → p ≤ ((integer_fractional_parts number).2.reverse).length →
          p * specReps ((integer_fractional_parts number).2.reverse) p ≤ best)
      ∧ (0 < best → 1 ≤ bp
          ∧ br = specReps ((integer_fractional_parts number).2.reverse) bp
          ∧ best = bp * br
          ∧ ∀ p, 1 ≤ p → p < bp →
              p * specReps ((integer_fractional_parts number).2.reverse) p < best)
      ∧ (best = 0 → bp = 0 ∧ br = 0)
      ∧ ((br : Int) < mr → find_recurring number mr = some number) := by
  obtain ⟨I, F, rfl, hI, hF⟩ := countEl_dot_decomp hone
  have hseq : (integer_fractional_parts (I ++ El.dot :: F)).2.reverse
      = F.reverse ++ [El.dot] := by
    rw [integer_fractional_parts_decomp hI]
    simp
  rw [hseq]
  obtain ⟨best, bp, br, hscan, hinv, hlt, -⟩ := find_recurring_main hI hF mr hmr
  refine ⟨best, bp, br, hscan, ?_, ?_, ?_, hlt⟩
  · intro p hp hple
    rcases hinv with ⟨h1, h2, h3, h4⟩ | ⟨h1, h2, h3, h4, h5, h6, h7⟩
    · have := h4 p hp hple
      omega
    · exact h6 p hp hple
  · intro hpos
    rcases hinv with ⟨h1, h2, h3, h4⟩ | ⟨h1, h2, h3, h4, h5, h6, h7⟩
    · omega
    · exact ⟨h1, h3, h4, h7⟩
  · intro h0
    rcases hinv with ⟨h1, h2, h3, h4⟩ | ⟨h1, h2, h3, h4, h5, h6, h7⟩
    · exact ⟨h2, h3⟩
    · omega

/-- C7 witness: the selection theorem applied at
`(9, '.', 1, 2, 3, 1, 2, 3)` with `min_repeat = 2`: the best candidate is
`(rank 3, period 3, 1 repetition)`, and `1 < 2`, so the number is returned
unchanged. -/
theorem find_recurring_selection_witness :
    find_recurring [El.d 9, El.dot, El.d 1, El.d 2, El.d 3, El.d 1, El.d 2,
        El.d 3] 2
      = some [El.d 9, El.dot, El.d 1, El.d 2, El.d 3, El.d 1, El.d 2, El.d 3] := by
  obtain ⟨best, bp, br, hscan, -, -, -, hret⟩ :=
    find_recurring_selection
      [El.d 9, El.dot, El.d 1, El.d 2, El.d 3, El.d 1, El.d 2, El.d 3] 2
      (by decide) (by decide)
  have hconc : periodScan
      ((integer_fractional_parts [El.d 9, El.dot, El.d 1, El.d 2, El.d 3,
          El.d 1, El.d 2, El.d 3]).2.reverse)
      ((integer_fractional_parts [El.d 9, El.dot, El.d 1, El.d 2, El.d 3,
          El.d 1, El.d 2, El.d 3]).2.reverse).length 0 (0, 0, 0)
      = some (3, 3, 1) := by rfl
  have htrip := Option.some.inj (hscan.symm.trans hconc)
  have hbr : br = 1 := by
    simpa using congrArg (fun x => x.2.2) htrip
  exact hret (by rw [hbr]; norm_num)

/-! ## Arithmetic facts about the fractional digit loop (C9) -/

theorem gcdLoop_eq_gcd : ∀ (b : Nat), ∀ (fuel : Nat), b < fuel → ∀ a : Nat,
    gcdLoop fuel (a : Int) (b : Int) = (Nat.gcd b a : Int) := by
  intro b
  induction b using Nat.strong_induction_on with
  | _ b ih =>
    intro fuel hfuel a
    obtain ⟨f, rfl⟩ : ∃ f, fuel = f + 1 := ⟨fuel - 1, by omega⟩
    rw [gcdLoop]
    by_cases hb : b = 0
    · subst hb
      simp
    · rw [if_neg (by exact_mod_cast hb)]
      have hmod : ((a : Int).fmod (b : Int)) = ((a % b : Nat) : Int) := by
        rw [Int.fmod_eq_emod _ (by positivity)]
        omega
      rw [hmod, ih (a % b) (Nat.mod_lt _ (by omega)) f (by
          have := @Nat.mod_lt a b (by omega)
          omega) b]
      rw [Nat.gcd_rec b a]

theorem pyGcd_eq_gcd {a b : Int} (ha : 0 ≤ a) (hb : 0 ≤ b) :
    pyGcd a b = (Int.gcd b a : Int) := by
  lift a to Nat using ha
  lift b to Nat using hb
  rw [pyGcd, Int.natAbs_ofNat]
  rw [gcdLoop_eq_gcd b (b + 1) (by omega) a]
  simp [Int.gcd]

theorem fbLoop_digits_bound (B : Int) (hB : 1 ≤ B) :
    ∀ (r i : Nat) (num den : Int) (digs : List Int),
      1 ≤ i → 0 ≤ num → 0 < den → num * B ^ (i - 1) < den →
      (∀ v ∈ digs, 0 ≤ v ∧ v < B) →
      ∀ v ∈ fbLoop B r i num den digs, 0 ≤ v ∧ v < B := by
  intro r
  induction r with
  | zero =>
    intro i num den digs _ _ _ _ hd v hv
    rw [fbLoop] at hv
    exact hd v hv
  | succ r ih =>
    intro i num den digs hi hnum hden hinv hd v hv
    simp only [fbLoop] at hv
    have hBpos : (0 : Int) < B := by omega
    have hB1 : (0 : Int) < B ^ i := by positivity
    have hnum1 : 0 ≤ num * B ^ i := mul_nonneg hnum (le_of_lt hB1)
    have hpow : B ^ i = B ^ (i - 1) * B := by
      rw [← pow_succ]
      congr 1
      omega
    have h1 : num * B ^ i < den * B := by
      rw [hpow, ← mul_assoc]
      exact mul_lt_mul_of_pos_right hinv hBpos
    have hdgt0 : 0 ≤ (num * B ^ i).fdiv den := Int.fdiv_nonneg hnum1 (le_of_lt hden)
    have hdgtB : (num * B ^ i).fdiv den < B := by
      rw [Int.fdiv_eq_ediv _ (le_of_lt hden), Int.ediv_lt_iff_lt_mul hden]
      linarith [mul_comm den B]
    have hnum2eq : num * B ^ i - (num * B ^ i).fdiv den * den
        = (num * B ^ i).fmod den := by
      have := Int.fdiv_add_fmod (num * B ^ i) den
      linarith
    have hnum2 : 0 ≤ num * B ^ i - (num * B ^ i).fdiv den * den := by
      rw [hnum2eq]
      exact Int.fmod_nonneg' _ hden
    have hnum2lt : num * B ^ i - (num * B ^ i).fdiv den * den < den := by
      rw [hnum2eq]
      exact Int.fmod_lt_of_pos _ hden
    set num2 := num * B ^ i - (num * B ^ i).fdiv den * den with hnum2def
    set den1 := den * B ^ i with hden1def
    have hden1 : 0 < den1 := mul_pos hden hB1
    have hg : pyGcd num2 den1 = (Int.gcd den1 num2 : Int) :=
      pyGcd_eq_gcd hnum2 (le_of_lt hden1)
    have hgpos : 0 < pyGcd num2 den1 := by
      rw [hg]
      exact_mod_cast Int.gcd_pos_of_ne_zero_left num2 (by omega)
    have hgdn : pyGcd num2 den1 ∣ num2 := by
      rw [hg]
      exact Int.gcd_dvd_right
    have hgdd : pyGcd num2 den1 ∣ den1 := by
      rw [hg]
      exact Int.gcd_dvd_left
    have hfa : num2.fdiv (pyGcd num2 den1) * pyGcd num2 den1 = num2 := by
      rw [Int.fdiv_eq_ediv _ (le_of_lt hgpos)]
      exact Int.ediv_mul_cancel hgdn
    have hfd : den1.fdiv (pyGcd num2 den1) * pyGcd num2 den1 = den1 := by
      rw [Int.fdiv_eq_ediv _ (le_of_lt hgpos)]
      exact Int.ediv_mul_cancel hgdd
    have hnum2' : 0 ≤ num2.fdiv (pyGcd num2 den1) :=
      Int.fdiv_nonneg hnum2 (le_of_lt hgpos)
    have hden1' : 0 < den1.fdiv (pyGcd num2 den1) := by
      rcases lt_trichotomy (den1.fdiv (pyGcd num2 den1)) 0 with h | h | h
      · nlinarith [hfd]
      · rw [← hfd, h] at hden1
        simp at hden1
      · exact h
    have hinv' : num2.fdiv (pyGcd num2 den1) * B ^ ((i + 1) - 1)
        < den1.fdiv (pyGcd num2 den1) := by
      have hlt2 : num2 * B ^ i < den1 := by
        rw [hden1def]
        exact mul_lt_mul_of_pos_right hnum2lt hB1
      have hsimp : (i + 1) - 1 = i := rfl
      rw [hsimp]
      by_contra hcon
      push_neg at hcon
      have hcontra : den1 ≤ num2 * B ^ i := by
        calc den1 = den1.fdiv (pyGcd num2 den1) * pyGcd num2 den1 := hfd.symm
          _ ≤ (num2.fdiv (pyGcd num2 den1) * B ^ i) * pyGcd num2 den1 :=
              mul_le_mul_of_nonneg_right hcon (le_of_lt hgpos)
          _ = (num2.fdiv (pyGcd num2 den1) * pyGcd num2 den1) * B ^ i := by ring
          _ = num2 * B ^ i := by rw [hfa]
      linarith
    exact ih (i + 1) _ _ _ (by omega) hnum2' hden1' hinv'
      (by
        intro u hu
        rcases List.mem_append.mp hu with h | h
        · exact hd u h
        · simp at h
          subst h
          exact ⟨hdgt0, hdgtB⟩) v hv

theorem numLoop_bound {b : Int} (hb : 2 ≤ b) :
    ∀ (vs : List Int), (∀ v ∈ vs, 0 ≤ v ∧ v < b) →
      0 ≤ numLoop b vs (vs.length - 1)
        ∧ numLoop b vs (vs.length - 1) < b ^ vs.length := by
  intro vs
  induction vs with
  | nil => intro _; simp [numLoop]
  | cons v rest ih =>
    intro h
    obtain ⟨hv0, hvb⟩ := h v (by simp)
    obtain ⟨ih0, ihb⟩ := ih (fun u hu => h u (by simp [hu]))
    have hstep : numLoop b (v :: rest) ((v :: rest).length - 1)
        = v * b ^ rest.length + numLoop b rest (rest.length - 1) := by
      rw [numLoop]
      congr 2
    have hbp : (0 : Int) < b ^ rest.length := by positivity
    rw [hstep]
    constructor
    · have := mul_nonneg hv0 (le_of_lt hbp)
      linarith
    · have hpow : (b : Int) ^ (v :: rest).length = b * b ^ rest.length := by
        rw [List.length_cons, pow_succ]
        ring
      rw [hpow]
      nlinarith

theorem onlyDigits_elVals : ∀ {l : List El} {b : Int}, onlyDigits l b →
    ∃ vs : List Int, elVals l = some vs ∧ l = vs.map El.d ∧
      ∀ v ∈ vs, 0 ≤ v ∧ (v < b ∨ (v = 1 ∧ b = 1)) := by
  intro l
  induction l with
  | nil => intro b _; exact ⟨[], rfl, rfl, by simp⟩
  | cons e rest ih =>
    intro b h
    obtain ⟨n, rfl, hn0, hnb⟩ := h e (by simp)
    obtain ⟨vs, hvs, hform, hbnd⟩ := ih (fun u hu => h u (by simp [hu]))
    refine ⟨n :: vs, ?_, by simp [← hform], ?_⟩
    · rw [elVals, hvs]
      rfl
    · intro v hv
      rcases List.mem_cons.mp hv with rfl | hv
      · exact ⟨hn0, hnb⟩
      · exact hbnd v hv

theorem digit_bounds (v : Int) (i : Nat) {ob : Int} (hob : 0 < ob) :
    0 ≤ digit v i ob ∧ digit v i ob < ob := by
  rw [digit]
  split
  · exact ⟨Int.le_refl 0, hob⟩
  · split
    · exact ⟨Int.fmod_nonneg' _ hob, Int.fmod_lt_of_pos _ hob⟩
    · exact ⟨Int.fmod_nonneg' _ hob, Int.fmod_lt_of_pos _ hob⟩

theorem from_base_10_int_digitOK (v ob : Int) (hob : 1 ≤ ob) :
    ∀ e ∈ from_base_10_int v ob, ∃ n : Int, e = El.d n ∧ outDigitOK ob n := by
  rw [from_base_10_int]
  split
  · intro e he
    simp at he
    subst he
    refine ⟨0, rfl, Int.le_refl 0, ?_⟩
    by_cases h1 : ob = 1
    · exact Or.inl ⟨h1, Or.inl rfl⟩
    · exact Or.inr ⟨h1, by omega⟩
  · split
    next h0 h1 =>
      intro e he
      rw [List.eq_of_mem_replicate he]
      exact ⟨1, rfl, by norm_num, Or.inl ⟨h1, Or.inr rfl⟩⟩
    next h0 h1 =>
      intro e he
      rw [List.mem_reverse] at he
      obtain ⟨i, -, rfl⟩ := List.mem_map.mp he
      obtain ⟨hd0, hdb⟩ := @digit_bounds v i ob (by omega)
      exact ⟨digit v i ob, rfl, hd0, Or.inr ⟨h1, hdb⟩⟩

theorem from_base_10_int_base1 (v : Int) :
    (∀ n : Int, El.d n ∈ from_base_10_int v 1 → n = 1) ∨
      ∃ rest, from_base_10_int v 1 = El.d 0 :: rest ∧
        (∀ n : Int, El.d n ∈ rest → False) := by
  rw [from_base_10_int]
  split
  · right
    exact ⟨[], rfl, by simp⟩
  · rw [if_pos rfl]
    left
    intro n hn
    have := List.eq_of_mem_replicate hn
    exact (El.d.inj this)

theorem from_base_10_int_outWF (v ob : Int) (hob : 1 ≤ ob) :
    outWF (from_base_10_int v ob) ob := by
  constructor
  · exact ⟨from_base_10_int v ob, from_base_10_int_digitOK v ob hob, Or.inl rfl⟩
  · intro hob1
    subst hob1
    exact from_base_10_int_base1 v

theorem zeroRun_all_zero : ∀ l : List El, (∀ e ∈ l, e = El.d 0) →
    zeroRun l = l.length := by
  intro l
  induction l with
  | nil => simp [zeroRun]
  | cons e rest ih =>
    intro h
    rw [zeroRun, if_pos (h e (by simp)), ih (fun u hu => h u (by simp [hu]))]
    simp

theorem stripz_subset (G : List El) :
    ∀ e ∈ (G.reverse.drop (zeroRun G.reverse)).reverse, e ∈ G := by
  intro e he
  rw [List.mem_reverse] at he
  exact List.mem_reverse.mp (List.drop_subset _ _ he)

theorem stripz_all_zero {G : List El} (h : ∀ e ∈ G, e = El.d 0) :
    (G.reverse.drop (zeroRun G.reverse)).reverse = [] := by
  rw [zeroRun_all_zero G.reverse (fun e he => h e (List.mem_reverse.mp he)),
    List.drop_length]
  rfl

theorem sumPow_one_replicate : ∀ (m : Nat) (i : Nat),
    sumPow 1 (List.replicate m (1 : Int)) i = m := by
  intro m
  induction m with
  | zero => intro i; simp [sumPow]
  | succ m ih =>
    intro i
    rw [List.replicate_succ, sumPow, ih (i + 1)]
    push_cast
    ring

theorem fractional_base_bound {F' : List El} {ib ob : Int} (k : Nat)
    (hib : 2 ≤ ib) (hob : 1 ≤ ob) (hF : onlyDigits F' ib) :
    ∃ digs : List Int,
      fractional_base (El.dot :: F') ib ob k = some (El.dot :: digs.map El.d)
        ∧ ∀ v ∈ digs, 0 ≤ v ∧ v < ob := by
  obtain ⟨vs, hvs, -, hbnd⟩ := onlyDigits_elVals hF
  have hbnd' : ∀ v ∈ vs, 0 ≤ v ∧ v < ib := by
    intro v hv
    obtain ⟨h0, hb⟩ := hbnd v hv
    rcases hb with h | ⟨-, h⟩
    · exact ⟨h0, h⟩
    · omega
  have hdrop : (El.dot :: F').drop 1 = F' := rfl
  obtain ⟨hnum0, hnumlt⟩ := numLoop_bound hib vs hbnd'
  have hden : (0 : Int) < ib ^ vs.length := by positivity
  refine ⟨fbLoop ob k 1 (numLoop ib vs (vs.length - 1)) (ib ^ vs.length) [], ?_, ?_⟩
  · rw [fractional_base, hdrop, hvs]
    rfl
  · intro v hv
    exact fbLoop_digits_bound ob hob k 1 _ _ [] (by omega) hnum0 hden
      (by simpa using hnumlt) (by simp) v hv

/-! ## Pipeline shape lemmas and the output invariant (C9) -/

theorem applyRecurring_false (n3 : List El) :
    applyRecurring false n3 = Except.ok n3 := rfl

theorem convertNumber_int {ds' : List El} {ib ob : Int} {k : Nat}
    (hdot : El.dot ∉ ds') {v : Int}
    (hint : integer_base ds' ib ob = some (from_base_10_int v ob)) :
    convertNumber ds' ib ob k = Except.ok (from_base_10_int v ob) := by
  rw [convertNumber, if_neg hdot, hint]

theorem convertNumber_dot {I F' : List El} {ib ob : Int} (k : Nat)
    (hib : 2 ≤ ib) (hob : 1 ≤ ob) (hI : onlyDigits I ib) (hF : onlyDigits F' ib) :
    ∃ (vI : Int) (digs : List Int),
      convertNumber (I ++ El.dot :: F') ib ob k
        = Except.ok (from_base_10_int vI ob ++ El.dot ::
            ((digs.map El.d).reverse.drop (zeroRun (digs.map El.d).reverse)).reverse)
      ∧ ∀ v ∈ digs, 0 ≤ v ∧ v < ob := by
  have hdotI : El.dot ∉ I := by
    intro hmem
    obtain ⟨n, heq, -⟩ := hI _ hmem
    exact El.noConfusion heq
  obtain ⟨vsI, hvsI, hIform, -⟩ := onlyDigits_elVals hI
  obtain ⟨digs, hfb, hdigs⟩ := fractional_base_bound k hib hob hF
  have hfi : firstIdx El.dot (I ++ El.dot :: F') = I.length :=
    firstIdx_append_not_mem hdotI F'
  refine ⟨sumPow ib vsI.reverse 0, digs, ?_, hdigs⟩
  rw [convertNumber,
    if_pos (List.mem_append.mpr (Or.inr (List.mem_cons_self _ _))), hfi]
  have htake : (I ++ El.dot :: F').take I.length = I := by
    rw [List.take_append_of_le_length (Nat.le_refl _), List.take_length]
  have hdrop : (I ++ El.dot :: F').drop I.length = El.dot :: F' := by
    rw [List.drop_append_of_le_length (Nat.le_refl _), List.drop_length,
      List.nil_append]
  have hint : integer_base I ib ob
      = some (from_base_10_int (sumPow ib vsI.reverse 0) ob) := by
    rw [integer_base, to_base_10_int, hvsI]
    rfl
  rw [htake, hdrop, hfb, hint]
  show Except.ok (truncate (from_base_10_int (sumPow ib vsI.reverse 0) ob
    ++ El.dot :: digs.map El.d)) = _
  rw [truncate_append_dot]

theorem expand_recurring_bracket {I F : List El} (P : List El)
    (hI : El.lb ∉ I) (hF : El.lb ∉ F) :
    expand_recurring (I ++ El.dot :: (F ++ El.lb :: (P ++ [El.rb]))) 5
      = I ++ El.dot :: (F ++ (List.replicate 6 P).flatten) := by
  have hnotm : El.lb ∉ I ++ El.dot :: F := by
    intro h
    rcases List.mem_append.mp h with h | h
    · exact hI h
    · rcases List.mem_cons.mp h with h | h
      · exact El.noConfusion h
      · exact hF h
  have hform : I ++ El.dot :: (F ++ El.lb :: (P ++ [El.rb]))
      = (I ++ El.dot :: F) ++ El.lb :: (P ++ [El.rb]) := by
    simp
  have hmem : El.lb ∈ I ++ El.dot :: (F ++ El.lb :: (P ++ [El.rb])) := by
    rw [hform]
    exact List.mem_append.mpr (Or.inr (List.mem_cons_self _ _))
  rw [expand_recurring, if_pos hmem, hform, firstIdx_append_not_mem hnotm]
  simp only []
  have hdrop : ((I ++ El.dot :: F) ++ El.lb :: (P ++ [El.rb])).drop
      ((I ++ El.dot :: F).length + 1) = P ++ [El.rb] := by
    rw [List.drop_append 1]
    rfl
  have htake : ((I ++ El.dot :: F) ++ El.lb :: (P ++ [El.rb])).take
      (I ++ El.dot :: F).length = I ++ El.dot :: F := by
    rw [List.take_append_of_le_length (Nat.le_refl _), List.take_length]
  rw [hdrop, htake, List.dropLast_concat]
  simp

theorem onlyDigits_append {A B : List El} {b : Int} (hA : onlyDigits A b)
    (hB : onlyDigits B b) : onlyDigits (A ++ B) b := by
  intro e he
  rcases List.mem_append.mp he with h | h
  · exact hA e h
  · exact hB e h

theorem onlyDigits_flatten_replicate {P : List El} {b : Int} (n : Nat)
    (h : onlyDigits P b) : onlyDigits (List.replicate n P).flatten b := by
  intro e he
  rw [List.mem_flatten] at he
  obtain ⟨l, hl, hel⟩ := he
  rw [List.eq_of_mem_replicate hl] at hel
  exact h e hel

theorem applyRecurring_dot_outWF {vI : Int} {ob : Int} (hob : 1 ≤ ob)
    {digs : List Int} (hdigs : ∀ v ∈ digs, 0 ≤ v ∧ v < ob) (r : Bool)
    {out : List El}
    (hok : applyRecurring r
        (from_base_10_int vI ob ++ El.dot ::
          ((digs.map El.d).reverse.drop (zeroRun (digs.map El.d).reverse)).reverse)
      = Except.ok out) : outWF out ob := by
  have hG'mem : ∀ e ∈ ((digs.map El.d).reverse.drop
      (zeroRun (digs.map El.d).reverse)).reverse,
      ∃ n : Int, e = El.d n ∧ 0 ≤ n ∧ n < ob := by
    intro e he
    obtain ⟨v, hv, rfl⟩ := List.mem_map.mp (stripz_subset (digs.map El.d) e he)
    exact ⟨v, rfl, (hdigs v hv).1, (hdigs v hv).2⟩
  have hG'ok : ∀ e ∈ ((digs.map El.d).reverse.drop
      (zeroRun (digs.map El.d).reverse)).reverse,
      ∃ n : Int, e = El.d n ∧ outDigitOK ob n := by
    intro e he
    obtain ⟨n, rfl, h0, hb⟩ := hG'mem e he
    refine ⟨n, rfl, h0, ?_⟩
    by_cases h1 : ob = 1
    · exact Or.inl ⟨h1, by omega⟩
    · exact Or.inr ⟨h1, hb⟩
  have hIoutOK := from_base_10_int_digitOK vI ob hob
  have hdotI : El.dot ∉ from_base_10_int vI ob := dot_not_mem_from_base_10_int vI ob
  have hdotG : El.dot ∉ ((digs.map El.d).reverse.drop
      (zeroRun (digs.map El.d).reverse)).reverse := by
    intro h
    obtain ⟨n, heq, -⟩ := hG'mem _ h
    exact El.noConfusion heq
  have hb1G : ob = 1 → ((digs.map El.d).reverse.drop
      (zeroRun (digs.map El.d).reverse)).reverse = [] := by
    intro h1
    apply stripz_all_zero
    intro e he
    obtain ⟨v, hv, rfl⟩ := List.mem_map.mp he
    have := hdigs v hv
    have hv0 : v = 0 := by omega
    rw [hv0]
  have houtWF_plain : outWF (from_base_10_int vI ob ++ El.dot ::
      ((digs.map El.d).reverse.drop (zeroRun (digs.map El.d).reverse)).reverse) ob := by
    constructor
    · exact ⟨from_base_10_int vI ob, hIoutOK, Or.inr ⟨_, hG'ok, Or.inl rfl⟩⟩
    · intro h1
      rw [hb1G h1]
      subst h1
      rcases from_base_10_int_base1 vI with h | ⟨rest, hform, hnone⟩
      · left
        intro n hn
        rcases List.mem_append.mp hn with hn | hn
        · exact h n hn
        · rcases List.mem_cons.mp hn with hn | hn
          · exact El.noConfusion hn
          · simp at hn
      · right
        refine ⟨rest ++ [El.dot], by rw [hform]; simp, ?_⟩
        intro n hn
        rcases List.mem_append.mp hn with hn | hn
        · exact hnone n hn
        · simp at hn
  cases r with
  | false =>
    have hout : out = _ := (Except.ok.inj hok).symm
    exact hout ▸ houtWF_plain
  | true =>
    rw [applyRecurring, if_pos rfl] at hok
    obtain ⟨best, bp, br, hscan, hinv, hlt, hge⟩ :=
      find_recurring_main hdotI hdotG 2 (by norm_num)
    by_cases hbr : (br : Int) < 2
    · rw [hlt hbr] at hok
      have hout : out = _ := (Except.ok.inj hok).symm
      exact hout ▸ houtWF_plain
    · obtain ⟨t, p2, ht, hsub, hbp1, hbpF, hplen, heq⟩ := hge hbr
      rw [heq] at hok
      have hout : out = (from_base_10_int vI ob ++ El.dot ::
          ((digs.map El.d).reverse.drop (zeroRun (digs.map El.d).reverse)).reverse.take t)
          ++ El.lb :: (p2.reverse ++ [El.rb]) := (Except.ok.inj hok).symm
      have hp2mem : ∀ e ∈ p2, ∃ n : Int, e = El.d n ∧ outDigitOK ob n := by
        intro e he
        have hmem := hsub e he
        rw [List.take_append_of_le_length (by simpa using hbpF)] at hmem
        exact hG'ok e (List.mem_reverse.mp (List.take_subset _ _ hmem))
      constructor
      · refine ⟨from_base_10_int vI ob, hIoutOK,
          Or.inr ⟨((digs.map El.d).reverse.drop
              (zeroRun (digs.map El.d).reverse)).reverse.take t, ?_,
            Or.inr ⟨p2.reverse, ?_, ?_, ?_⟩⟩⟩
        · intro e he
          exact hG'ok e (List.take_subset _ _ he)
        · intro e he
          exact hp2mem e (List.mem_reverse.mp he)
        · intro hnil
          have : p2.reverse.length = 0 := by rw [hnil]; rfl
          rw [List.length_reverse, hplen] at this
          omega
        · rw [hout]
          simp
      · intro h1
        exfalso
        have := hb1G h1
        rw [this] at hbpF
        simp at hbpF
        omega

/-- C9: for every well-formed input (spec's Digit Sequence invariant, digits
valid for the input base), a successful `base` call returns a tuple with at
most one `'.'`, at most one matched `'['`/`']'` pair appearing only after
the `'.'` with `']'` last, and every digit value admissible for the output
base (base-1 carve-out: only the digit 1, save a single `0` denoting zero). -/
theorem output_invariants (ds : List El) (ib ob : Int) (k : Nat) (r : Bool)
    (hin : inputWF ds ib) (hib : 1 ≤ ib) (hob : 1 ≤ ob) (out : List El)
    (hok : base ds ib ob k r = Except.ok out) : outWF out ob := by
  have hvalid : check_valid ds ib = true := by
    cases hv : check_valid ds ib with
    | false =>
      rw [base, if_pos (by simp [hv])] at hok
      exact Except.noConfusion hok
    | true => rfl
  rw [base, if_neg (by simp [hvalid])] at hok
  simp only [] at hok
  by_cases hib1 : ib = 1
  · rw [if_pos hib1] at hok
    have hlb : El.lb ∉ List.replicate (countEl (El.d 1) ds) (El.d 1) := by
      intro h
      exact El.noConfusion (List.eq_of_mem_replicate h)
    have hdot : El.dot ∉ List.replicate (countEl (El.d 1) ds) (El.d 1) := by
      intro h
      exact El.noConfusion (List.eq_of_mem_replicate h)
    rw [expand_recurring_of_not_mem hlb] at hok
    have hrep : List.replicate (countEl (El.d 1) ds) (El.d 1)
        = (List.replicate (countEl (El.d 1) ds) (1 : Int)).map El.d := by
      simp
    have hint : integer_base (List.replicate (countEl (El.d 1) ds) (El.d 1)) ib ob
        = some (from_base_10_int
            (sumPow ib (List.replicate (countEl (El.d 1) ds) (1 : Int)).reverse 0) ob) := by
      rw [hrep, integer_base, to_base_10_int, elVals_map_d]
      rfl
    rw [convertNumber_int hdot hint] at hok
    have hok2 : applyRecurring r (from_base_10_int
        (sumPow ib (List.replicate (countEl (El.d 1) ds) (1 : Int)).reverse 0) ob)
        = Except.ok out := hok
    cases r with
    | false =>
      rw [applyRecurring_false] at hok2
      rw [← Except.ok.inj hok2]
      exact from_base_10_int_outWF _ ob hob
    | true =>
      rw [applyRecurring, if_pos rfl,
        find_recurring_of_not_mem (dot_not_mem_from_base_10_int _ _) 2] at hok2
      rw [← Except.ok.inj hok2]
      exact from_base_10_int_outWF _ ob hob
  · rw [if_neg hib1] at hok
    have hib2 : 2 ≤ ib := by omega
    rcases hin with hdig | ⟨I, F, rfl, hI, hF⟩ | ⟨I, F, P, rfl, hI, hF, hP⟩
    · have hlb : El.lb ∉ ds := by
        intro h
        obtain ⟨n, heq, -⟩ := hdig _ h
        exact El.noConfusion heq
      have hdot : El.dot ∉ ds := by
        intro h
        obtain ⟨n, heq, -⟩ := hdig _ h
        exact El.noConfusion heq
      rw [expand_recurring_of_not_mem hlb] at hok
      obtain ⟨vs, hvs, hform, -⟩ := onlyDigits_elVals hdig
      have hint : integer_base ds ib ob
          = some (from_base_10_int (sumPow ib vs.reverse 0) ob) := by
        rw [integer_base, to_base_10_int, hvs]
        rfl
      rw [convertNumber_int hdot hint] at hok
      have hok2 : applyRecurring r (from_base_10_int (sumPow ib vs.reverse 0) ob)
          = Except.ok out := hok
      cases r with
      | false =>
        rw [applyRecurring_false] at hok2
        rw [← Except.ok.inj hok2]
        exact from_base_10_int_outWF _ ob hob
      | true =>
        rw [applyRecurring, if_pos rfl,
          find_recurring_of_not_mem (dot_not_mem_from_base_10_int _ _) 2] at hok2
        rw [← Except.ok.inj hok2]
        exact from_base_10_int_outWF _ ob hob
    · have hlb : El.lb ∉ I ++ El.dot :: F := by
        intro h
        rcases List.mem_append.mp h with h | h
        · obtain ⟨n, heq, -⟩ := hI _ h
          exact El.noConfusion heq
        · rcases List.mem_cons.mp h with h | h
          · exact El.noConfusion h
          · obtain ⟨n, heq, -⟩ := hF _ h
            exact El.noConfusion heq
      rw [expand_recurring_of_not_mem hlb] at hok
      obtain ⟨vI, digs, hconv, hdigs⟩ := convertNumber_dot k hib2 hob hI hF
      rw [hconv] at hok
      exact applyRecurring_dot_outWF hob hdigs r hok
    · have hlbI : El.lb ∉ I := by
        intro h
        obtain ⟨n, heq, -⟩ := hI _ h
        exact El.noConfusion heq
      have hlbF : El.lb ∉ F := by
        intro h
        obtain ⟨n, heq, -⟩ := hF _ h
        exact El.noConfusion heq
      rw [expand_recurring_bracket P hlbI hlbF] at hok
      obtain ⟨vI, digs, hconv, hdigs⟩ := convertNumber_dot k hib2 hob hI
        (onlyDigits_append hF (onlyDigits_flatten_replicate 6 hP))
      rw [hconv] at hok
      exact applyRecurring_dot_outWF hob hdigs r hok

/-- C9 witness: the invariant theorem applied to `base((1, '.', 5), 10, 10)`,
whose result is `(1, '.', 5)`. -/
theorem output_invariants_witness : outWF [El.d 1, El.dot, El.d 5] 10 := by
  have hI : onlyDigits [El.d 1] 10 := by
    intro e he
    simp at he
    subst he
    exact ⟨1, rfl, by norm_num, Or.inl (by norm_num)⟩
  have hF : onlyDigits [El.d 5] 10 := by
    intro e he
    simp at he
    subst he
    exact ⟨5, rfl, by norm_num, Or.inl (by norm_num)⟩
  exact output_invariants [El.d 1, El.dot, El.d 5] 10 10 10 true
    (Or.inr (Or.inl ⟨[El.d 1], [El.d 5], rfl, hI, hF⟩))
    (by norm_num) (by norm_num) [El.d 1, El.dot, El.d 5] (by rfl)

/-! ## Place-value arithmetic for the round trip (C8) -/

theorem fdiv_cross {a b c d : Int} (hb : 0 < b) (hd : 0 < d) (h : a * d = c * b) :
    a.fdiv b = c.fdiv d := by
  rw [Int.fdiv_eq_ediv _ (le_of_lt hb), Int.fdiv_eq_ediv _ (le_of_lt hd)]
  calc a / b = d * a / (d * b) := (Int.mul_ediv_mul_of_pos a b hd).symm
    _ = b * c / (b * d) := by rw [mul_comm d a, h, mul_comm c b, mul_comm d b]
    _ = c / d := Int.mul_ediv_mul_of_pos c d hb

theorem ediv_ediv_pos {p q : Int} (hp : 0 < p) (hq : 0 < q) (N : Int) :
    N / p / q = N / (p * q) := by
  have hpq : 0 < p * q := mul_pos hp hq
  have hR0 : 0 ≤ N % (p * q) := Int.emod_nonneg N (ne_of_gt hpq)
  have hRlt : N % (p * q) < p * q := Int.emod_lt_of_pos N hpq
  have hN : N = N % (p * q) + (N / (p * q)) * (p * q) := by
    have := Int.ediv_add_emod N (p * q)
    linarith
  have h1 : N / p = N % (p * q) / p + N / (p * q) * q := by
    conv_lhs => rw [hN]
    rw [show N % (p * q) + N / (p * q) * (p * q)
        = N % (p * q) + (N / (p * q) * q) * p by ring]
    exact Int.add_mul_ediv_right _ _ (ne_of_gt hp)
  have ha : 0 ≤ N % (p * q) / p := Int.ediv_nonneg hR0 (le_of_lt hp)
  have hb2 : N % (p * q) / p < q := by
    rw [Int.ediv_lt_iff_lt_mul hp]
    linarith [mul_comm q p]
  rw [h1, Int.add_mul_ediv_right _ _ (ne_of_gt hq),
    Int.ediv_eq_zero_of_lt ha hb2, zero_add]

theorem numLoop_shift (b : Int) :
    ∀ (vs : List Int) (t : Nat),
      numLoop b vs (vs.length - 1 + t) = fracVal b vs * b ^ t := by
  intro vs
  induction vs with
  | nil => intro t; simp [numLoop, fracVal]
  | cons c rest ih =>
    intro t
    show c * b ^ ((c :: rest).length - 1 + t)
        + numLoop b rest ((c :: rest).length - 1 + t - 1)
      = fracVal b (c :: rest) * b ^ t
    have hlen : (c :: rest).length - 1 + t = rest.length + t := by
      simp
    rw [hlen]
    cases rest with
    | nil =>
      show c * b ^ (0 + t) + numLoop b [] (0 + t - 1)
        = (c * b ^ ([] : List Int).length + fracVal b []) * b ^ t
      simp [numLoop, fracVal]
    | cons c2 rest2 =>
      have h2 : (c2 :: rest2).length + t - 1 = (c2 :: rest2).length - 1 + t := by
        simp only [List.length_cons]
        omega
      rw [h2, ih t]
      show c * b ^ ((c2 :: rest2).length + t) + fracVal b (c2 :: rest2) * b ^ t
        = (c * b ^ (c2 :: rest2).length + fracVal b (c2 :: rest2)) * b ^ t
      rw [pow_add]
      ring

theorem numLoop_eq_fracVal (b : Int) (vs : List Int) :
    numLoop b vs (vs.length - 1) = fracVal b vs := by
  have h := numLoop_shift b vs 0
  simpa using h

theorem fracVal_bounds {b : Int} (hb : 1 ≤ b) :
    ∀ vs : List Int, (∀ v ∈ vs, 0 ≤ v ∧ v < b) →
      0 ≤ fracVal b vs ∧ fracVal b vs < b ^ vs.length := by
  intro vs
  induction vs with
  | nil => intro _; simp [fracVal]
  | cons c rest ih =>
    intro h
    obtain ⟨h0, h1⟩ := ih (fun v hv => h v (List.mem_cons_of_mem _ hv))
    obtain ⟨hc0, hcb⟩ := h c (List.mem_cons_self _ _)
    have hbpos : (0:Int) < b := by omega
    have hp : (0:Int) < b ^ rest.length := by positivity
    constructor
    · show 0 ≤ c * b ^ rest.length + fracVal b rest
      have : 0 ≤ c * b ^ rest.length := mul_nonneg hc0 (le_of_lt hp)
      linarith
    · show c * b ^ rest.length + fracVal b rest < b ^ (c :: rest).length
      have hc1 : c * b ^ rest.length ≤ (b - 1) * b ^ rest.length :=
        mul_le_mul_of_nonneg_right (by omega) (le_of_lt hp)
      have hlen : (c :: rest).length = rest.length + 1 := rfl
      rw [hlen, pow_succ]
      nlinarith

theorem fracVal_append_zeros (b : Int) :
    ∀ (xs : List Int) (t : Nat),
      fracVal b (xs ++ List.replicate t 0) = fracVal b xs * b ^ t := by
  intro xs
  induction xs with
  | nil =>
    intro t
    show fracVal b (List.replicate t 0) = fracVal b [] * b ^ t
    have hz : ∀ n : Nat, fracVal b (List.replicate n 0) = 0 := by
      intro n
      induction n with
      | zero => rfl
      | succ m ihm =>
        show (0:Int) * b ^ (List.replicate m (0:Int)).length
            + fracVal b (List.replicate m 0) = 0
        rw [ihm]
        ring
    rw [hz]
    show (0:Int) = 0 * b ^ t
    ring
  | cons c rest ih =>
    intro t
    show c * b ^ (rest ++ List.replicate t 0).length
        + fracVal b (rest ++ List.replicate t 0)
      = (c * b ^ rest.length + fracVal b rest) * b ^ t
    rw [ih t, List.length_append, List.length_replicate, pow_add]
    ring

theorem zeroRunV_take : ∀ l : List Int, l.take (zeroRunV l) = List.replicate (zeroRunV l) 0 := by
  intro l
  induction l with
  | nil => rfl
  | cons v rest ih =>
    show (v :: rest).take (if v = 0 then zeroRunV rest + 1 else 0)
        = List.replicate (if v = 0 then zeroRunV rest + 1 else 0) 0
    by_cases hv : v = 0
    · rw [if_pos hv]
      show v :: rest.take (zeroRunV rest) = _
      rw [ih, hv]
      rfl
    · rw [if_neg hv]
      rfl

theorem zeroRunV_drop_head : ∀ l : List Int, (l.drop (zeroRunV l)).head? ≠ some 0 := by
  intro l
  induction l with
  | nil => simp [zeroRunV]
  | cons v rest ih =>
    show ((v :: rest).drop (if v = 0 then zeroRunV rest + 1 else 0)).head? ≠ some 0
    by_cases hv : v = 0
    · rw [if_pos hv]
      exact ih
    · rw [if_neg hv]
      simp [hv]

theorem zeroRunV_eq_zero {l : List Int} (h : l.head? ≠ some 0) : zeroRunV l = 0 := by
  cases l with
  | nil => rfl
  | cons v rest =>
    show (if v = 0 then zeroRunV rest + 1 else 0) = 0
    rw [if_neg]
    intro hv
    exact h (by simp [hv])

theorem zeroRunV_replicate_append (l : List Int) :
    ∀ t : Nat, zeroRunV (List.replicate t 0 ++ l) = t + zeroRunV l := by
  intro t
  induction t with
  | zero => simp
  | succ n ih =>
    show (if (0:Int) = 0 then zeroRunV (List.replicate n 0 ++ l) + 1 else 0)
        = n + 1 + zeroRunV l
    rw [if_pos rfl, ih]
    omega

theorem stripzV_decomp (vs : List Int) :
    vs = stripzV vs ++ List.replicate (zeroRunV vs.reverse) 0 := by
  calc vs = vs.reverse.reverse := (List.reverse_reverse vs).symm
    _ = (vs.reverse.take (zeroRunV vs.reverse)
          ++ vs.reverse.drop (zeroRunV vs.reverse)).reverse := by
        rw [List.take_append_drop]
    _ = (vs.reverse.drop (zeroRunV vs.reverse)).reverse
          ++ (vs.reverse.take (zeroRunV vs.reverse)).reverse := by
        rw [List.reverse_append]
    _ = stripzV vs ++ List.replicate (zeroRunV vs.reverse) 0 := by
        rw [stripzV, zeroRunV_take, List.reverse_replicate]

theorem stripzV_length (vs : List Int) :
    vs.length = (stripzV vs).length + zeroRunV vs.reverse := by
  conv_lhs => rw [stripzV_decomp vs]
  simp

theorem fracVal_stripzV (b : Int) (vs : List Int) :
    fracVal b vs = fracVal b (stripzV vs) * b ^ zeroRunV vs.reverse := by
  conv_lhs => rw [stripzV_decomp vs]
  rw [fracVal_append_zeros]

theorem stripzV_subset (vs : List Int) : ∀ v ∈ stripzV vs, v ∈ vs := by
  intro v hv
  rw [stripzV_decomp vs]
  exact List.mem_append.mpr (Or.inl hv)

theorem stripzV_append_zeros (xs : List Int) (t : Nat) :
    stripzV (xs ++ List.replicate t 0) = stripzV xs := by
  rw [stripzV, stripzV, List.reverse_append, List.reverse_replicate,
    zeroRunV_replicate_append]
  have hlen : t + zeroRunV xs.reverse
      = (List.replicate t (0:Int)).length + zeroRunV xs.reverse := by
    simp
  rw [hlen, List.drop_append]

theorem stripzV_idem (vs : List Int) : stripzV (stripzV vs) = stripzV vs := by
  have h : zeroRunV (stripzV vs).reverse = 0 := by
    rw [stripzV, List.reverse_reverse]
    exact zeroRunV_eq_zero (zeroRunV_drop_head _)
  show ((stripzV vs).reverse.drop (zeroRunV (stripzV vs).reverse)).reverse = stripzV vs
  rw [h, List.drop_zero, List.reverse_reverse]

theorem zeroRun_map_d : ∀ xs : List Int, zeroRun (xs.map El.d) = zeroRunV xs := by
  intro xs
  induction xs with
  | nil => rfl
  | cons x rest ih =>
    show (if El.d x = El.d 0 then zeroRun (rest.map El.d) + 1 else 0)
        = (if x = 0 then zeroRunV rest + 1 else 0)
    by_cases hx : x = 0
    · rw [if_pos (by rw [hx]), if_pos hx, ih]
    · rw [if_neg (fun h => hx (El.d.inj h)), if_neg hx]

theorem stripz_map_d (xs : List Int) :
    ((xs.map El.d).reverse.drop (zeroRun (xs.map El.d).reverse)).reverse
      = (stripzV xs).map El.d := by
  rw [stripzV, ← List.map_reverse, zeroRun_map_d, ← List.map_drop,
    ← List.map_reverse]

/-! ## The integer round trip (C8) -/

theorem sumPow_range_succ (b : Int) (f : Nat → Int) (L : Nat) :
    sumPow b ((List.range (L + 1)).map f) 0
      = sumPow b ((List.range L).map f) 0 + f L * b ^ L := by
  rw [List.range_succ, List.map_append, sumPow_append]
  simp [sumPow]

theorem digit_pos_eq (N : Int) (hN : N ≠ 0) (i : Nat) (b : Int) :
    digit N i b = (N.fdiv (b ^ i)).fmod b := by
  rw [digit, if_neg hN]
  by_cases hi : i ≠ 0
  · rw [if_pos hi]
  · rw [if_neg hi]
    push_neg at hi
    subst hi
    rw [pow_zero, Int.fdiv_one]

theorem digit_sum {b : Int} (hb : 2 ≤ b) (N : Int) (hN : 0 < N) :
    ∀ L : Nat, sumPow b ((List.range L).map fun i => digit N i b) 0
      = N.fmod (b ^ L) := by
  intro L
  induction L with
  | zero =>
    show (0 : Int) = N.fmod (b ^ 0)
    rw [pow_zero, Int.fmod_eq_emod _ (by norm_num), Int.emod_one]
  | succ L ih =>
    rw [sumPow_range_succ, ih, digit_pos_eq N (by omega) L b]
    have hb0 : (0:Int) < b := by omega
    have hbL : (0:Int) < b ^ L := by positivity
    have hbL1 : (0:Int) < b ^ (L + 1) := by positivity
    rw [Int.fmod_eq_emod _ (le_of_lt hbL), Int.fmod_eq_emod _ (by omega),
      Int.fmod_eq_emod _ (le_of_lt hbL1), Int.fdiv_eq_ediv _ (le_of_lt hbL)]
    rw [Int.emod_def, Int.emod_def, Int.emod_def]
    rw [ediv_ediv_pos hbL hb0 N, ← pow_succ]
    ring

theorem digitsLoop_bound {b : Int} (hb : 2 ≤ b) :
    ∀ (fuel : Nat) (N : Int), 0 ≤ N → N < (fuel : Int) →
      N < b ^ digitsLoop b fuel N := by
  intro fuel
  induction fuel with
  | zero =>
    intro N h0 hf
    simp at hf
    omega
  | succ f ih =>
    intro N h0 hf
    show N < b ^ (if N < 1 then 0 else digitsLoop b f (N.fdiv b) + 1)
    by_cases h1 : N < 1
    · rw [if_pos h1, pow_zero]
      omega
    · rw [if_neg h1]
      have hfd : N.fdiv b = N / b := Int.fdiv_eq_ediv _ (by omega)
      have hq0 : 0 ≤ N / b := Int.ediv_nonneg h0 (by omega)
      have hqlt : N / b < N := by
        rw [Int.ediv_lt_iff_lt_mul (by omega : (0:Int) < b)]
        nlinarith
      have hNf : N ≤ (f : Int) := by
        push_cast at hf
        omega
      have hih := ih (N / b) hq0 (by omega)
      rw [hfd, pow_succ]
      have hm := Int.emod_lt_of_pos N (show (0:Int) < b by omega)
      have he := Int.ediv_add_emod N b
      have hle : N / b + 1 ≤ b ^ digitsLoop b f (N / b) := Int.add_one_le_iff.mpr hih
      have hmul : b * (N / b + 1) ≤ b * b ^ digitsLoop b f (N / b) :=
        mul_le_mul_of_nonneg_left hle (by omega)
      calc N = b * (N / b) + N % b := he.symm
        _ < b * (N / b) + b := by omega
        _ = b * (N / b + 1) := by ring
        _ ≤ b * b ^ digitsLoop b f (N / b) := hmul
        _ = b ^ digitsLoop b f (N / b) * b := mul_comm _ _

theorem digits_lt {b : Int} (hb : 2 ≤ b) (N : Int) (h0 : 0 ≤ N) :
    N < b ^ digits N b := by
  rw [digits]
  apply digitsLoop_bound hb
  · exact h0
  · push_cast
    rw [Int.toNat_of_nonneg h0]
    omega

theorem to_from_base_10 (b : Int) (hb : 2 ≤ b) (N : Int) (hN : 0 ≤ N) :
    to_base_10_int (from_base_10_int N b) b = some N := by
  rcases hN.lt_or_eq with hpos | hzero
  · rw [from_base_10_int, if_neg (by omega), if_neg (by omega)]
    rw [to_base_10_int]
    have hmm : (List.range (digits N b)).map (fun i => El.d (digit N i b))
        = ((List.range (digits N b)).map fun i => digit N i b).map El.d := by
      rw [List.map_map]
      rfl
    rw [hmm, ← List.map_reverse, elVals_map_d, Option.map_some']
    congr 1
    rw [List.reverse_reverse, digit_sum hb N hpos]
    rw [Int.fmod_eq_emod _ (by positivity : (0:Int) ≤ b ^ digits N b)]
    exact Int.emod_eq_of_lt hN (digits_lt hb N hN)
  · rw [← hzero]
    rw [from_base_10_int, if_pos le_rfl]
    show some ((0:Int) * b ^ 0 + 0) = some 0
    norm_num

/-! ## The fractional digit loop as long division (C8) -/

theorem ldDigits_zero (B D : Int) : ∀ k, ldDigits B D k 0 = List.replicate k 0 := by
  intro k
  induction k with
  | zero => rfl
  | succ n ih =>
    show ((0:Int) * B).fdiv D :: ldDigits B D n (0 * B - ((0:Int) * B).fdiv D * D)
        = List.replicate (n + 1) 0
    rw [zero_mul, Int.zero_fdiv, zero_mul, sub_zero, ih]
    rfl

theorem ldDigits_rep {B : Int} (hB : 2 ≤ B) {D : Int} (hD : 0 < D) :
    ∀ (ws : List Int) (k : Nat) (M : Int),
      ws.length ≤ k → (∀ w ∈ ws, 0 ≤ w ∧ w < B) →
      M * B ^ ws.length = fracVal B ws * D →
      ldDigits B D k M = ws ++ List.replicate (k - ws.length) 0 := by
  intro ws
  induction ws with
  | nil =>
    intro k M _ _ hrep
    have hM : M = 0 := by
      have h := hrep
      simp [fracVal] at h
      exact h
    subst hM
    simp [ldDigits_zero B D k]
  | cons w ws' ih =>
    intro k M hlen hdig hrep
    obtain ⟨k', rfl⟩ : ∃ k', k = k' + 1 := by
      refine ⟨k - 1, ?_⟩
      simp at hlen
      omega
    have hlen' : ws'.length ≤ k' := by
      simp at hlen
      omega
    obtain ⟨hw0, hwB⟩ := hdig w (List.mem_cons_self _ _)
    have hdig' : ∀ v ∈ ws', 0 ≤ v ∧ v < B := fun v hv => hdig v (List.mem_cons_of_mem _ hv)
    have hB0 : (0:Int) < B := by omega
    have hWpos : (0:Int) < B ^ ws'.length := by positivity
    obtain ⟨hW0, hWlt⟩ := fracVal_bounds (by omega : (1:Int) ≤ B) ws' hdig'
    have hrep' : M * B * B ^ ws'.length = (w * B ^ ws'.length + fracVal B ws') * D := by
      have hc : fracVal B (w :: ws') = w * B ^ ws'.length + fracVal B ws' := rfl
      calc M * B * B ^ ws'.length = M * B ^ (ws'.length + 1) := by ring
        _ = M * B ^ (w :: ws').length := rfl
        _ = fracVal B (w :: ws') * D := hrep
        _ = (w * B ^ ws'.length + fracVal B ws') * D := by rw [hc]
    show ((M * B).fdiv D) :: ldDigits B D k' (M * B - (M * B).fdiv D * D)
        = (w :: ws') ++ List.replicate ((k' + 1) - (w :: ws').length) 0
    have hdgt : (M * B).fdiv D = w := by
      have h1 : (M * B).fdiv D
          = (fracVal B ws' + w * B ^ ws'.length).fdiv (B ^ ws'.length) := by
        apply fdiv_cross hD hWpos
        linear_combination hrep'
      rw [h1, Int.fdiv_eq_ediv _ (le_of_lt hWpos),
        Int.add_mul_ediv_right _ _ (ne_of_gt hWpos),
        Int.ediv_eq_zero_of_lt hW0 hWlt]
      omega
    rw [hdgt]
    have hrep2 : (M * B - w * D) * B ^ ws'.length = fracVal B ws' * D := by
      linear_combination hrep'
    rw [ih k' (M * B - w * D) hlen' hdig' hrep2]
    have hk : (k' + 1) - (w :: ws').length = k' - ws'.length := by simp
    rw [hk]
    rfl

theorem fbLoop_eq_ldDigits {B : Int} (hB : 2 ≤ B) (D : Int) (hD : 0 < D) :
    ∀ (r j : Nat) (num den N : Int) (digs : List Int),
      0 < den → 0 ≤ num → num * (D * B ^ j) = N * den →
      fbLoop B r (j + 1) num den digs = digs ++ ldDigits B D r N := by
  intro r
  induction r with
  | zero =>
    intro j num den N digs _ _ _
    simp [fbLoop, ldDigits]
  | succ r ih =>
    intro j num den N digs hden hnum hcross
    have hB0 : (0:Int) < B := by omega
    have hBj : (0:Int) < B ^ j := by positivity
    have hBj1 : (0:Int) < B ^ (j + 1) := by positivity
    simp only [fbLoop, ldDigits]
    have hdgt : (num * B ^ (j + 1)).fdiv den = (N * B).fdiv D := by
      apply fdiv_cross hden hD
      calc num * B ^ (j + 1) * D = num * (D * B ^ j) * B := by ring
        _ = N * den * B := by rw [hcross]
        _ = N * B * den := by ring
    rw [hdgt]
    set w := (N * B).fdiv D with hw
    set num2 := num * B ^ (j + 1) - w * den with hnum2def
    set den1 := den * B ^ (j + 1) with hden1def
    have hnum2eq : num2 = (num * B ^ (j + 1)).fmod den := by
      rw [hnum2def, hw, ← hdgt.trans hw]
      linarith [Int.fdiv_add_fmod (num * B ^ (j + 1)) den]
    have hnum2 : 0 ≤ num2 := by
      rw [hnum2eq]
      exact Int.fmod_nonneg' _ hden
    have hden1 : 0 < den1 := mul_pos hden hBj1
    have hg : pyGcd num2 den1 = (Int.gcd den1 num2 : Int) :=
      pyGcd_eq_gcd hnum2 (le_of_lt hden1)
    have hgpos : 0 < pyGcd num2 den1 := by
      rw [hg]
      exact_mod_cast Int.gcd_pos_of_ne_zero_left num2 (by omega)
    have hgdn : pyGcd num2 den1 ∣ num2 := by
      rw [hg]
      exact Int.gcd_dvd_right
    have hgdd : pyGcd num2 den1 ∣ den1 := by
      rw [hg]
      exact Int.gcd_dvd_left
    have hfa : num2.fdiv (pyGcd num2 den1) * pyGcd num2 den1 = num2 := by
      rw [Int.fdiv_eq_ediv _ (le_of_lt hgpos)]
      exact Int.ediv_mul_cancel hgdn
    have hfd : den1.fdiv (pyGcd num2 den1) * pyGcd num2 den1 = den1 := by
      rw [Int.fdiv_eq_ediv _ (le_of_lt hgpos)]
      exact Int.ediv_mul_cancel hgdd
    have hnum2' : 0 ≤ num2.fdiv (pyGcd num2 den1) :=
      Int.fdiv_nonneg hnum2 (le_of_lt hgpos)
    have hden1' : 0 < den1.fdiv (pyGcd num2 den1) := by
      rcases lt_trichotomy (den1.fdiv (pyGcd num2 den1)) 0 with h | h | h
      · nlinarith [hfd]
      · rw [← hfd, h] at hden1
        simp at hden1
      · exact h
    have hcross1 : num2 * (D * B ^ (j + 1)) = (N * B - w * D) * den1 := by
      rw [hnum2def, hden1def]
      have h1 : num * B ^ (j + 1) * D = N * B * den := by
        calc num * B ^ (j + 1) * D = num * (D * B ^ j) * B := by ring
          _ = N * den * B := by rw [hcross]
          _ = N * B * den := by ring
      linear_combination B ^ (j + 1) * h1
    have hcross' : num2.fdiv (pyGcd num2 den1) * (D * B ^ (j + 1))
        = (N * B - w * D) * (den1.fdiv (pyGcd num2 den1)) := by
      apply mul_right_cancel₀ (ne_of_gt hgpos)
      calc num2.fdiv (pyGcd num2 den1) * (D * B ^ (j + 1)) * pyGcd num2 den1
          = (num2.fdiv (pyGcd num2 den1) * pyGcd num2 den1) * (D * B ^ (j + 1)) := by
            ring
        _ = num2 * (D * B ^ (j + 1)) := by rw [hfa]
        _ = (N * B - w * D) * den1 := hcross1
        _ = (N * B - w * D) * (den1.fdiv (pyGcd num2 den1) * pyGcd num2 den1) := by
            rw [hfd]
        _ = (N * B - w * D) * (den1.fdiv (pyGcd num2 den1)) * pyGcd num2 den1 := by
            ring
    rw [ih (j + 1) (num2.fdiv (pyGcd num2 den1)) (den1.fdiv (pyGcd num2 den1))
      (N * B - w * D) (digs ++ [w]) hden1' hnum2' hcross']
    simp

/-! ## One full pass of `base` on an exact dot-shaped input (C8) -/

theorem base_dot_eval {ib ob : Int} (hib : 2 ≤ ib) (hob : 2 ≤ ob)
    (N : Int) (hN : 0 ≤ N) (vs : List Int) (hvs : ∀ v ∈ vs, 0 ≤ v ∧ v < ib)
    (k : Nat) :
    base (from_base_10_int N ib ++ El.dot :: vs.map El.d) ib ob k false
      = Except.ok (from_base_10_int N ob ++ El.dot ::
          (stripzV (fbLoop ob k 1 (numLoop ib vs (vs.length - 1))
            (ib ^ vs.length) [])).map El.d) := by
  have hIdig : ∀ e ∈ from_base_10_int N ib, ∃ n : Int, e = El.d n ∧ 0 ≤ n ∧ n < ib := by
    intro e he
    obtain ⟨n, rfl, h0, hcase⟩ := from_base_10_int_digitOK N ib (by omega) e he
    rcases hcase with ⟨h1, -⟩ | ⟨-, hlt⟩
    · exact absurd h1 (by omega)
    · exact ⟨n, rfl, h0, hlt⟩
  have hcv : check_valid (from_base_10_int N ib ++ El.dot :: vs.map El.d) ib = true := by
    apply check_valid_eq_true
    intro n hn
    rcases List.mem_append.mp hn with h | h
    · obtain ⟨m, hm, -, hlt⟩ := hIdig _ h
      have hnm := El.d.inj hm
      omega
    · rcases List.mem_cons.mp h with h | h
      · exact El.noConfusion h
      · obtain ⟨v, hv, hvd⟩ := List.mem_map.mp h
        have hvn := El.d.inj hvd
        have := hvs v hv
        omega
  have hlb : El.lb ∉ from_base_10_int N ib ++ El.dot :: vs.map El.d := by
    intro h
    rcases List.mem_append.mp h with h | h
    · obtain ⟨n, hn, -⟩ := hIdig _ h
      exact El.noConfusion hn
    · rcases List.mem_cons.mp h with h | h
      · exact El.noConfusion h
      · obtain ⟨v, -, hvd⟩ := List.mem_map.mp h
        exact El.noConfusion hvd
  rw [base, if_neg (by simp [hcv])]
  simp only []
  rw [if_neg (by omega : ¬ ib = 1)]
  rw [expand_recurring_of_not_mem hlb]
  have hdotI : El.dot ∉ from_base_10_int N ib := dot_not_mem_from_base_10_int N ib
  have hfi : firstIdx El.dot (from_base_10_int N ib ++ El.dot :: vs.map El.d)
      = (from_base_10_int N ib).length := firstIdx_append_not_mem hdotI _
  have hconv : convertNumber (from_base_10_int N ib ++ El.dot :: vs.map El.d) ib ob k
      = Except.ok (from_base_10_int N ob ++ El.dot ::
          (stripzV (fbLoop ob k 1 (numLoop ib vs (vs.length - 1))
            (ib ^ vs.length) [])).map El.d) := by
    rw [convertNumber,
      if_pos (List.mem_append.mpr (Or.inr (List.mem_cons_self _ _))), hfi]
    have htake : (from_base_10_int N ib ++ El.dot :: vs.map El.d).take
        (from_base_10_int N ib).length = from_base_10_int N ib := by
      rw [List.take_append_of_le_length (Nat.le_refl _), List.take_length]
    have hdrop : (from_base_10_int N ib ++ El.dot :: vs.map El.d).drop
        (from_base_10_int N ib).length = El.dot :: vs.map El.d := by
      rw [List.drop_append_of_le_length (Nat.le_refl _), List.drop_length,
        List.nil_append]
    rw [htake, hdrop]
    have hint : integer_base (from_base_10_int N ib) ib ob
        = some (from_base_10_int N ob) := by
      rw [integer_base, to_from_base_10 ib hib N hN, Option.map_some']
    have hfrac : fractional_base (El.dot :: vs.map El.d) ib ob k
        = some (El.dot :: (fbLoop ob k 1 (numLoop ib vs (vs.length - 1))
            (ib ^ vs.length) []).map El.d) := by
      rw [fractional_base]
      show (elVals (vs.map El.d)).map _ = _
      rw [elVals_map_d, Option.map_some']
    rw [hint, hfrac]
    show Except.ok (truncate (from_base_10_int N ob ++ El.dot ::
        (fbLoop ob k 1 (numLoop ib vs (vs.length - 1)) (ib ^ vs.length) []).map El.d))
      = _
    rw [truncate_append_dot, stripz_map_d]
  rw [hconv]
  rfl

/-! ## C8: the round-trip claim -/

/-- C8 counterexample: `0.1` is exactly representable in one fractional digit
of base 10, yet converting `(0,'.',1)` from base 10 to base 3 with
`max_depth = 1, recurring = False` yields `(0,'.')` (the single base-3 digit
of 1/10 is 0 and is stripped), and converting that back to base 10 yields
`(0,'.')` again — not the original digit sequence, which trailing-zero
normalization leaves untouched.  Representability in the source base alone
does not make the round trip close. -/
theorem round_trip_counterexample :
    base [El.d 0, El.dot, El.d 1] 10 3 1 false = Except.ok [El.d 0, El.dot]
    ∧ base [El.d 0, El.dot] 3 10 1 false = Except.ok [El.d 0, El.dot]
    ∧ truncate [El.d 0, El.dot, El.d 1] = [El.d 0, El.dot, El.d 1]
    ∧ ([El.d 0, El.dot] : List El) ≠ [El.d 0, El.dot, El.d 1] :=
  ⟨by decide, by decide, by decide, by decide⟩

theorem cross_swap {b1 b2 : Int} (hb1 : 0 < b1) (hb2 : 0 < b2)
    (vs ws : List Int) (k : Nat) (hlw : ws.length ≤ k)
    (hrep : fracVal b1 vs * b2 ^ ws.length = fracVal b2 ws * b1 ^ vs.length) :
    fracVal b2 (stripzV (ws ++ List.replicate (k - ws.length) 0))
        * b1 ^ (stripzV vs).length
      = fracVal b1 (stripzV vs)
        * b2 ^ (stripzV (ws ++ List.replicate (k - ws.length) 0)).length := by
  set digs1 := ws ++ List.replicate (k - ws.length) 0 with hdigs1def
  obtain ⟨t1, ht1len, ht1val⟩ : ∃ t1, vs.length = (stripzV vs).length + t1
      ∧ fracVal b1 vs = fracVal b1 (stripzV vs) * b1 ^ t1 :=
    ⟨_, stripzV_length vs, fracVal_stripzV b1 vs⟩
  obtain ⟨t2, ht2len, ht2val⟩ : ∃ t2, digs1.length = (stripzV digs1).length + t2
      ∧ fracVal b2 digs1 = fracVal b2 (stripzV digs1) * b2 ^ t2 :=
    ⟨_, stripzV_length digs1, fracVal_stripzV b2 digs1⟩
  have hdl : digs1.length = k := by
    rw [hdigs1def]
    simp
    omega
  have hk2 : k = (stripzV digs1).length + t2 := by
    rw [← hdl]
    exact ht2len
  have hWz : fracVal b2 digs1 = fracVal b2 ws * b2 ^ (k - ws.length) := by
    rw [hdigs1def]
    exact fracVal_append_zeros b2 ws (k - ws.length)
  have e1 : fracVal b2 (stripzV digs1) * b2 ^ t2
      = fracVal b2 ws * b2 ^ (k - ws.length) := by
    rw [← ht2val]
    exact hWz
  have e3 : fracVal b1 (stripzV vs) * b2 ^ ws.length
      = fracVal b2 ws * b1 ^ (stripzV vs).length := by
    have hb1t : (b1:Int) ^ t1 ≠ 0 := by positivity
    apply mul_right_cancel₀ hb1t
    calc fracVal b1 (stripzV vs) * b2 ^ ws.length * b1 ^ t1
        = (fracVal b1 (stripzV vs) * b1 ^ t1) * b2 ^ ws.length := by ring
      _ = fracVal b1 vs * b2 ^ ws.length := by rw [← ht1val]
      _ = fracVal b2 ws * b1 ^ vs.length := hrep
      _ = fracVal b2 ws * b1 ^ ((stripzV vs).length + t1) := by rw [← ht1len]
      _ = fracVal b2 ws * b1 ^ (stripzV vs).length * b1 ^ t1 := by
          rw [pow_add]
          ring
  have hpne : (b2:Int) ^ (t2 + ws.length) ≠ 0 := by positivity
  apply mul_right_cancel₀ hpne
  have hexp : ws.length + k = (stripzV digs1).length + (t2 + ws.length) := by omega
  calc fracVal b2 (stripzV digs1) * b1 ^ (stripzV vs).length * b2 ^ (t2 + ws.length)
      = (fracVal b2 (stripzV digs1) * b2 ^ t2) * b1 ^ (stripzV vs).length
          * b2 ^ ws.length := by
        rw [pow_add]
        ring
    _ = (fracVal b2 ws * b2 ^ (k - ws.length)) * b1 ^ (stripzV vs).length
          * b2 ^ ws.length := by rw [e1]
    _ = (fracVal b2 ws * b1 ^ (stripzV vs).length)
          * (b2 ^ (k - ws.length) * b2 ^ ws.length) := by ring
    _ = (fracVal b2 ws * b1 ^ (stripzV vs).length) * b2 ^ k := by
        rw [← pow_add, Nat.sub_add_cancel hlw]
    _ = (fracVal b1 (stripzV vs) * b2 ^ ws.length) * b2 ^ k := by rw [e3]
    _ = fracVal b1 (stripzV vs) * b2 ^ (ws.length + k) := by
        rw [pow_add]
        ring
    _ = fracVal b1 (stripzV vs) * b2 ^ ((stripzV digs1).length + (t2 + ws.length)) := by
        rw [hexp]
    _ = fracVal b1 (stripzV vs) * b2 ^ (stripzV digs1).length * b2 ^ (t2 + ws.length) := by
        rw [pow_add]
        ring

/-- C8: the claim as stated is false (`round_trip_counterexample`:
representability in the SOURCE base alone does not suffice, since the target
base may truncate). Amended round trip: for bases `b1, b2 ≥ 2`, an integer
part `N ≥ 0` and a value whose fractional part is exactly representable in at
most `k` fractional digits of BOTH bases — base-`b1` digits `vs` and
base-`b2` digits `ws`, equal as fractions by cross-multiplication — running
`base` from `b1` to `b2` and back, both with `max_depth = k` and
`recurring = False`, returns exactly the trailing-zero normalization
(`truncate`) of the original digit sequence. -/
theorem round_trip_normalized (b1 b2 : Int) (k : Nat) (N : Int) (vs ws : List Int)
    (hb1 : 2 ≤ b1) (hb2 : 2 ≤ b2) (hN : 0 ≤ N)
    (hvs : ∀ v ∈ vs, 0 ≤ v ∧ v < b1) (hws : ∀ w ∈ ws, 0 ≤ w ∧ w < b2)
    (hlv : vs.length ≤ k) (hlw : ws.length ≤ k)
    (hrep : fracVal b1 vs * b2 ^ ws.length = fracVal b2 ws * b1 ^ vs.length) :
    ∃ out1,
      base (from_base_10_int N b1 ++ El.dot :: vs.map El.d) b1 b2 k false
        = Except.ok out1
      ∧ base out1 b2 b1 k false
        = Except.ok (truncate (from_base_10_int N b1 ++ El.dot :: vs.map El.d)) := by
  have hb1p : (0:Int) < b1 := by omega
  have hb2p : (0:Int) < b2 := by omega
  have hD1 : (0:Int) < b1 ^ vs.length := by positivity
  refine ⟨_, base_dot_eval hb1 hb2 N hN vs hvs k, ?_⟩
  have hdigs1 : fbLoop b2 k 1 (numLoop b1 vs (vs.length - 1)) (b1 ^ vs.length) []
      = ws ++ List.replicate (k - ws.length) 0 := by
    rw [numLoop_eq_fracVal]
    have hbr := fbLoop_eq_ldDigits hb2 (b1 ^ vs.length) hD1 k 0
      (fracVal b1 vs) (b1 ^ vs.length) (fracVal b1 vs) [] hD1
      (fracVal_bounds (by omega) vs hvs).1 (by ring)
    rw [List.nil_append] at hbr
    exact hbr.trans (ldDigits_rep hb2 hD1 ws k (fracVal b1 vs) hlw hws hrep)
  rw [hdigs1]
  have hXdig : ∀ v ∈ stripzV (ws ++ List.replicate (k - ws.length) 0),
      0 ≤ v ∧ v < b2 := by
    intro v hv
    rcases List.mem_append.mp (stripzV_subset _ v hv) with h | h
    · exact hws v h
    · have h0 := List.eq_of_mem_replicate h
      subst h0
      omega
  rw [base_dot_eval hb2 hb1 N hN (stripzV (ws ++ List.replicate (k - ws.length) 0))
    hXdig k]
  have hcross2 := cross_swap hb1p hb2p vs ws k hlw hrep
  have hlv' : (stripzV vs).length ≤ k := by
    have := stripzV_length vs
    omega
  have hvs' : ∀ v ∈ stripzV vs, 0 ≤ v ∧ v < b1 :=
    fun v hv => hvs v (stripzV_subset vs v hv)
  have hD2 : (0:Int)
      < b2 ^ (stripzV (ws ++ List.replicate (k - ws.length) 0)).length := by
    positivity
  have hdigs2 : fbLoop b1 k 1
      (numLoop b2 (stripzV (ws ++ List.replicate (k - ws.length) 0))
        ((stripzV (ws ++ List.replicate (k - ws.length) 0)).length - 1))
      (b2 ^ (stripzV (ws ++ List.replicate (k - ws.length) 0)).length) []
      = stripzV vs ++ List.replicate (k - (stripzV vs).length) 0 := by
    rw [numLoop_eq_fracVal]
    have hbr := fbLoop_eq_ldDigits hb1
      (b2 ^ (stripzV (ws ++ List.replicate (k - ws.length) 0)).length) hD2 k 0
      (fracVal b2 (stripzV (ws ++ List.replicate (k - ws.length) 0)))
      (b2 ^ (stripzV (ws ++ List.replicate (k - ws.length) 0)).length)
      (fracVal b2 (stripzV (ws ++ List.replicate (k - ws.length) 0))) [] hD2
      (fracVal_bounds (by omega) _ hXdig).1 (by ring)
    rw [List.nil_append] at hbr
    exact hbr.trans (ldDigits_rep hb1 hD2 (stripzV vs) k _ hlv' hvs' hcross2)
  rw [hdigs2, stripzV_append_zeros, stripzV_idem]
  rw [truncate_append_dot, stripz_map_d]

/-- C8 witness: the amended round trip at `1.5`, base 10 → base 2 → base 10
with `max_depth = 1` (`0.5` is one fractional digit in both bases). -/
theorem round_trip_normalized_witness :
    ∃ out1,
      base (from_base_10_int 1 10 ++ El.dot :: ([5] : List Int).map El.d)
          10 2 1 false = Except.ok out1
      ∧ base out1 2 10 1 false
        = Except.ok (truncate (from_base_10_int 1 10
            ++ El.dot :: ([5] : List Int).map El.d)) :=
  round_trip_normalized 10 2 1 1 [5] [1] (by norm_num) (by norm_num) (by norm_num)
    (by decide) (by decide) (by decide) (by decide) (by decide)

end Baseconvert
